import Mathlib

/-!
# Verification of the tfsort HCL reordering engine

Shallow embedding of internal/hclsort/hcl_processor.go.

The hclwrite document model is embedded as follows:

* a `Token` is a lexical unit; the Go code only ever inspects whether a
  token's type equals hclsyntax.TokenNewline, so the embedding keeps a
  dedicated `nl` constructor and tags every other token with its raw text
  (identifier, comment, or other content);
* a `Body` is the ordered list of its node items, as in hclwrite: an item
  is either a structured attribute node (name plus the token sequence that
  attr.BuildTokens(nil) returns), a nested block node, or a raw token
  (hclwrite stores tokens appended with AppendUnstructuredTokens /
  AppendNewline as unstructured token nodes, invisible to Attributes());
* a `Block` has a type string, labels, and a body.

Go's body.Attributes() returns a map[string]*Attribute; iterating a Go map
with range yields the keys in an unspecified order.  The embedding makes
that explicit: Body.attributesList gives the attribute nodes in document
order, and every place where the Go code ranges over the map either sorts
the collected names (making the result independent of the iteration order)
or - in sortResourceParams, where the collected namesFirst list is *not*
sorted - takes the iteration order as an explicit argument named enum.
-/

namespace Tfsort

/-- A lexical token.  The Go code distinguishes exactly
hclsyntax.TokenNewline from every other token type, so the embedding keeps
newline as its own constructor; identifier and comment tokens carry their
text (they are only moved around, never inspected). -/
inductive Token : Type where
  | nl : Token
  | ident : String → Token
  | comment : String → Token
  | raw : String → Token
deriving DecidableEq, Repr

/-- Tests tokens[i].Type == hclsyntax.TokenNewline. -/
def Token.isNl : Token → Bool
  | .nl => true
  | _ => false

/-- Strict lexicographic comparison of character sequences, comparing
position by position.  On UTF-8 encoded text the codepoint order used
here agrees with Go's byte-wise string comparison, because UTF-8 is
order-preserving on codepoints; this is the order behind sort.Strings
and the Name comparison of sort.Slice. -/
def bytesLtB : List Char → List Char → Bool
  | [], [] => false
  | [], _ :: _ => true
  | _ :: _, [] => false
  | a :: as, b :: bs =>
      if a < b then true
      else if b < a then false
      else bytesLtB as bs

/-- The non-strict form of the sort.Strings order on strings. -/
def nameLE (a b : String) : Prop := bytesLtB b.data a.data = false

instance : DecidableRel nameLE := fun a b =>
  inferInstanceAs (Decidable (bytesLtB b.data a.data = false))

theorem bytesLtB_irrefl (l : List Char) : bytesLtB l l = false := by
  induction l with
  | nil => rfl
  | cons a as ih => simp [bytesLtB, ih]

theorem bytesLtB_trans {l₁ l₂ l₃ : List Char} (h₁ : bytesLtB l₁ l₂ = true)
    (h₂ : bytesLtB l₂ l₃ = true) : bytesLtB l₁ l₃ = true := by
  induction l₁ generalizing l₂ l₃ with
  | nil =>
    cases l₃ with
    | nil =>
      cases l₂ with
      | nil => exact absurd h₁ (by simp [bytesLtB])
      | cons b bs => exact absurd h₂ (by simp [bytesLtB])
    | cons c cs => rfl
  | cons a as ih =>
    cases l₂ with
    | nil => exact absurd h₁ (by simp [bytesLtB])
    | cons b bs =>
      cases l₃ with
      | nil => exact absurd h₂ (by simp [bytesLtB])
      | cons c cs =>
        rw [bytesLtB] at h₁ h₂ ⊢
        rcases lt_trichotomy a b with hab | hab | hab
        · rcases lt_trichotomy b c with hbc | hbc | hbc
          · rw [if_pos (lt_trans hab hbc)]
          · subst hbc
            rw [if_pos hab]
          · rw [if_pos hbc, if_neg (lt_asymm hbc)] at h₂
            exact absurd h₂ (by simp)
        · subst hab
          rw [if_neg (lt_irrefl a), if_neg (lt_irrefl a)] at h₁
          rcases lt_trichotomy a c with hac | hac | hac
          · rw [if_pos hac]
          · subst hac
            rw [if_neg (lt_irrefl a), if_neg (lt_irrefl a)] at h₂ ⊢
            exact ih h₁ h₂
          · rw [if_neg (lt_asymm hac), if_pos hac] at h₂
            exact absurd h₂ (by simp)
        · rw [if_neg (lt_asymm hab), if_pos hab] at h₁
          exact absurd h₁ (by simp)

theorem bytesLtB_total {l₁ l₂ : List Char} (h₁ : bytesLtB l₁ l₂ = false)
    (h₂ : bytesLtB l₂ l₁ = false) : l₁ = l₂ := by
  induction l₁ generalizing l₂ with
  | nil =>
    cases l₂ with
    | nil => rfl
    | cons b bs => exact absurd h₁ (by simp [bytesLtB])
  | cons a as ih =>
    cases l₂ with
    | nil => exact absurd h₂ (by simp [bytesLtB])
    | cons b bs =>
      rw [bytesLtB] at h₁ h₂
      rcases lt_trichotomy a b with hab | hab | hab
      · rw [if_pos hab] at h₁
        exact absurd h₁ (by simp)
      · subst hab
        rw [if_neg (lt_irrefl a), if_neg (lt_irrefl a)] at h₁ h₂
        rw [ih h₁ h₂]
      · rw [if_pos hab] at h₂
        exact absurd h₂ (by simp)

theorem nameLE_or (a b : String) : nameLE a b ∨ nameLE b a := by
  rw [nameLE, nameLE]
  rcases h₁ : bytesLtB b.data a.data with _ | _
  · exact Or.inl rfl
  · rcases h₂ : bytesLtB a.data b.data with _ | _
    · exact Or.inr rfl
    · have := bytesLtB_trans h₁ h₂
      rw [bytesLtB_irrefl] at this
      exact absurd this (by simp)

instance : IsTotal String nameLE := ⟨nameLE_or⟩

instance : IsTrans String nameLE := by
  refine ⟨fun a b c hab hbc => ?_⟩
  rw [nameLE] at hab hbc ⊢
  by_contra hca
  rw [Bool.not_eq_false] at hca
  rcases h1 : bytesLtB a.data b.data with _ | _
  · rw [bytesLtB_total h1 hab] at hca
    rw [hca] at hbc
    exact Bool.noConfusion hbc
  · have h2 := bytesLtB_trans hca h1
    rw [h2] at hbc
    exact Bool.noConfusion hbc

instance : IsAntisymm String nameLE := by
  refine ⟨fun a b hab hba => ?_⟩
  rw [nameLE] at hab hba
  cases a with
  | mk da =>
    cases b with
    | mk db =>
      exact congrArg String.mk (bytesLtB_total hba hab)

mutual

/-- An hclwrite.Block: type string, labels, body. -/
inductive Block : Type where
  | mk : String → List String → Body → Block

/-- An hclwrite.Body: the ordered list of its node items. -/
inductive Body : Type where
  | mk : List Item → Body

/-- A node inside a body: a structured attribute (name plus its
BuildTokens(nil) token sequence), a nested block, or a raw token
(unstructured tokens / appended newlines). -/
inductive Item : Type where
  | tok : Token → Item
  | attr : String → List Token → Item
  | blk : Block → Item

end

def Block.btype : Block → String
  | .mk t _ _ => t

def Block.labels : Block → List String
  | .mk _ l _ => l

def Block.body : Block → Body
  | .mk _ _ b => b

def Body.items : Body → List Item
  | .mk l => l

/-- body.AppendNewline(). -/
def Body.appendNewline (b : Body) : Body :=
  .mk (b.items ++ [Item.tok Token.nl])

/-- body.AppendUnstructuredTokens(ts): the tokens become raw token nodes,
not attribute nodes (hclwrite keeps them unstructured). -/
def Body.appendUnstructuredTokens (b : Body) (ts : List Token) : Body :=
  .mk (b.items ++ ts.map Item.tok)

/-- body.AppendBlock(c). -/
def Body.appendBlock (b : Body) (c : Block) : Body :=
  .mk (b.items ++ [Item.blk c])

/-- body.Clear() followed by rebuilding: the rebuilt bodies all start from
an empty node list. -/
def Body.empty : Body := .mk []

/-- The attribute nodes of a body, in document order, as (name, tokens)
pairs.  body.Attributes() builds a map from exactly these entries. -/
def Body.attributesList (b : Body) : List (String × List Token) :=
  b.items.filterMap fun it =>
    match it with
    | .attr n ts => some (n, ts)
    | _ => none

/-- body.Blocks(): the nested block nodes, in document order. -/
def Body.blocksList (b : Body) : List Block :=
  b.items.filterMap fun it =>
    match it with
    | .blk c => some c
    | _ => none

/-- attrs[name] on the attributes map: the tokens of the attribute named
n (attribute names are unique within a body, map semantics). -/
def lookupTok (n : String) : List (String × List Token) → List Token
  | [] => []
  | (k, ts) :: rest => if k = n then ts else lookupTok n rest

/-- The trim step shared by every sorter (hcl_processor.go lines 54-60,
87-93, 141-147, 162-168, 202-208): start is advanced past the leading run
of newline tokens, end is retreated past the trailing run, and
tokens[start:end] is returned.  Equivalently: drop the leading newline
run, then the trailing newline run of what remains. -/
def trimNewlines (ts : List Token) : List Token :=
  ((ts.dropWhile Token.isNl).reverse.dropWhile Token.isNl).reverse

/-- The raw-token items of one relocated attribute: its trimmed
BuildTokens sequence as appended by AppendUnstructuredTokens. -/
def attrRun (attrs : List (String × List Token)) (n : String) : List Item :=
  (trimNewlines (lookupTok n attrs)).map Item.tok

/-- Joins item runs with a single newline token between consecutive runs
(the loop pattern: append run, then AppendNewline unless it was the last
iteration). -/
def joinNl : List (List Item) → List Item
  | [] => []
  | [r] => r
  | r :: rest => r ++ Item.tok Token.nl :: joinNl rest

/-- The attribute-emission loop shared verbatim by
sortRequiredProvidersInBlock (lines 50-65) and sortLocalsBlock (lines
83-99): for each name append the trimmed tokens, and append a newline
after every iteration except the last (the i+1 < len test). -/
def appendAttrsLoop (attrs : List (String × List Token)) :
    List String → Body → Body
  | [], b => b
  | [n], b => b.appendUnstructuredTokens (trimNewlines (lookupTok n attrs))
  | n :: n' :: rest, b =>
      appendAttrsLoop attrs (n' :: rest)
        ((b.appendUnstructuredTokens (trimNewlines (lookupTok n attrs))).appendNewline)

/-- The names collected by ranging over the attributes map and then
sorted with sort.Strings (the nameLE byte-wise lexicographic order).
Because the names are sorted and values are fetched back from the map by
name, the result does not depend on the map iteration order, so the
embedding collects the names in document order. -/
def sortedAttrNames (attrs : List (String × List Token)) : List String :=
  List.insertionSort nameLE (attrs.map Prod.fst)

/-- The clear-and-rebuild shared by sortRequiredProvidersInBlock (lines
38-66) and sortLocalsBlock (lines 72-100): Clear, AppendNewline, the
attribute-emission loop over the sorted names, then a final
AppendNewline. -/
def rebuildSortedBody (attrs : List (String × List Token)) : Body :=
  (appendAttrsLoop attrs (sortedAttrNames attrs) Body.empty.appendNewline).appendNewline

/-- sortLocalsBlock (hcl_processor.go lines 71-101). -/
def sortLocalsBlock (b : Block) : Block :=
  .mk b.btype b.labels (rebuildSortedBody b.body.attributesList)

/-- The loop body of sortRequiredProvidersInBlock: a child block of kind
required_providers has its body cleared and rebuilt from its sorted
attributes; everything else is untouched. -/
def rpChildMap : Item → Item
  | .blk c =>
      if c.btype = "required_providers" then
        .blk (.mk c.btype c.labels (rebuildSortedBody c.body.attributesList))
      else
        .blk c
  | it => it

/-- sortRequiredProvidersInBlock (hcl_processor.go lines 33-68): iterate
the direct child blocks; every child whose type is required_providers has
its body cleared and rebuilt from its sorted attributes; all other items
of the surrounding body (other child blocks, attributes, raw tokens) are
left untouched and keep their positions. -/
def sortRequiredProvidersInBlock (b : Block) : Block :=
  .mk b.btype b.labels (.mk (b.body.items.map rpChildMap))

theorem rpChildMap_blk (c : Block) :
    rpChildMap (Item.blk c) =
      if c.btype = "required_providers" then
        Item.blk (Block.mk c.btype c.labels (rebuildSortedBody c.body.attributesList))
      else Item.blk c := rfl

/-- Is the name one of the leading meta-arguments (the count /
for_each cases of the switch at lines 120-127)? -/
def isLeadingMeta (n : String) : Bool :=
  n = "count" || n = "for_each"

/-- The namesFirst list of sortResourceParams: the keys the range over
the attributes map yields (enum), restricted to the leading
meta-arguments, in iteration order - the switch appends them without
sorting. -/
def resMetas (enum : List String) : List String :=
  enum.filter isLeadingMeta

/-- The names list of sortResourceParams: the remaining keys (not a
leading meta-argument, not depends_on), sorted with sort.Strings. -/
def resNames (enum : List String) : List String :=
  List.insertionSort nameLE (enum.filter fun n => !isLeadingMeta n && n != "depends_on")

/-- The loop at lines 136-150: append each leading meta-argument's
trimmed tokens followed unconditionally by a newline. -/
def appendMetaLoop (attrs : List (String × List Token)) :
    List String → Body → Body
  | [], b => b
  | n :: rest, b =>
      appendMetaLoop attrs rest
        ((b.appendUnstructuredTokens (trimNewlines (lookupTok n attrs))).appendNewline)

/-- The loop at lines 183-189: append each nested block, with a newline
after every one except the last. -/
def appendBlocksLoop : List Block → Body → Body
  | [], b => b
  | [c], b => b.appendBlock c
  | c :: c' :: rest, b => appendBlocksLoop (c' :: rest) ((b.appendBlock c).appendNewline)

/-- sortResourceParams (hcl_processor.go lines 104-213).  enum is the
order in which the range over the attributes map yields the keys: Go
leaves it unspecified, so it is an explicit parameter here; theorems
quantify over every enum that is a permutation of the attribute names.
The switch routes count / for_each into namesFirst (in enum order,
unsorted), records depends_on in hasDependsOn, and collects everything
else into names, which is then sorted. -/
def sortResourceParams (enum : List String) (b : Block) : Block :=
  let attrs := b.body.attributesList
  let blocks := b.body.blocksList
  let namesFirst := resMetas enum
  let hasDependsOn := enum.contains "depends_on"
  let names := resNames enum
  let body := Body.empty.appendNewline
  let body := appendMetaLoop attrs namesFirst body
  let body := if namesFirst.length > 0 then body.appendNewline else body
  let body := appendAttrsLoop attrs names body
  let body :=
    if blocks.length > 0 && (names.length > 0 || namesFirst.length > 0) then
      body.appendNewline.appendNewline
    else body
  let body := appendBlocksLoop blocks body
  let body :=
    if hasDependsOn then
      (if blocks.length > 0 || names.length > 0 || namesFirst.length > 0 then
        body.appendNewline
      else body).appendUnstructuredTokens (trimNewlines (lookupTok "depends_on" attrs))
    else body
  .mk b.btype b.labels body.appendNewline

/-- The first pass of ProcessAndSortBlocks (lines 220-229): the switch on
the top-level block type.  e supplies the attribute-map iteration order
for each resource block (see sortResourceParams). -/
def phase1Block (e : Block → List String) (b : Block) : Block :=
  if b.btype = "terraform" then sortRequiredProvidersInBlock b
  else if b.btype = "resource" then sortResourceParams (e b) b
  else if b.btype = "locals" then sortLocalsBlock b
  else b

/-- First label of a block: the Name field of SortableBlock
(block.Labels()[0]; only built for blocks with at least one label). -/
def firstLabel (b : Block) : String :=
  b.labels.headD ""

/-- The comparison used by sort.Slice at lines 249-251 (Name i < Name j),
as the corresponding non-strict total order on blocks.  sort.Slice is an
unstable sort; the embedding uses the deterministic stable insertion sort
over this order, which realizes one of the permitted outcomes. -/
def blockLE (a b : Block) : Prop :=
  nameLE (firstLabel a) (firstLabel b)

instance : DecidableRel blockLE := fun a b =>
  inferInstanceAs (Decidable (nameLE (firstLabel a) (firstLabel b)))

instance : IsTotal Block blockLE := ⟨fun a b => nameLE_or (firstLabel a) (firstLabel b)⟩

instance : IsTrans Block blockLE :=
  ⟨fun _ _ _ h h' => Trans.trans (r := nameLE) h h'⟩

/-- The classification at line 239: allowedBlocks[blockType] (map lookup,
false when absent, so allowed is a boolean predicate) and
len(block.Labels()) > 0. -/
def isSortable (allowed : String → Bool) (b : Block) : Bool :=
  allowed b.btype && !b.labels.isEmpty

/-- The emission loop over otherBlocks (lines 255-260): append each
block; append a newline when more other blocks follow or any sortable
block will follow. -/
def appendOthersLoop (hasSortable : Bool) : List Block → Body → Body
  | [], b => b
  | [c], b =>
      if hasSortable then (b.appendBlock c).appendNewline else b.appendBlock c
  | c :: c' :: rest, b =>
      appendOthersLoop hasSortable (c' :: rest) ((b.appendBlock c).appendNewline)

/-- The item list of the file body after the first pass of
ProcessAndSortBlocks: the switch mutates matching blocks in place, every
other item is untouched. -/
def phase1Items (e : Block → List String) (file : Body) : List Item :=
  file.items.map fun it =>
    match it with
    | .blk b => .blk (phase1Block e b)
    | _ => it

/-- body.Blocks() as read at line 232, after the first pass. -/
def topBlocks (e : Block → List String) (file : Body) : List Block :=
  (Body.mk (phase1Items e file)).blocksList

/-- ProcessAndSortBlocks (hcl_processor.go lines 216-270).  First pass:
the switch over the top-level blocks (block bodies are mutated in place,
so the top-level item order is unchanged).  Second pass: partition the
top-level blocks into sortable ones (allowed type with at least one
label) and others, keeping the original relative order inside each group
(the single loop at lines 237-247 appends to one of the two slices);
sort the sortable ones by first label; Clear the top-level body and emit
others then sortables with the two loops at lines 255-267.  e supplies
attribute-map iteration orders (see sortResourceParams). -/
def processAndSortBlocks (e : Block → List String) (allowed : String → Bool)
    (file : Body) : Body :=
  let originalBlocks := topBlocks e file
  let sortableItems := originalBlocks.filter (isSortable allowed)
  let otherBlocks := originalBlocks.filter fun b => !isSortable allowed b
  let sorted := List.insertionSort blockLE sortableItems
  let body := appendOthersLoop (sorted.length > 0) otherBlocks Body.empty
  appendBlocksLoop sorted body

/-- The meta-argument emission of sortResourceParams: each leading
meta-argument's trimmed run followed by a newline. -/
def metaPart (attrs : List (String × List Token)) (namesFirst : List String) :
    List Item :=
  (namesFirst.map fun n => attrRun attrs n ++ [Item.tok Token.nl]).flatten

/-- The diagnostics value returned by the external hclwrite.ParseConfig
collaborator: whether diags.HasErrors() and the diagnostic text rendered
by the %w verb. -/
structure Diagnostics where
  hasErrors : Bool
  text : String
deriving DecidableEq, Repr

/-- ParseHCLContent (hcl_processor.go lines 13-30).  The external parser
call is a collaborator, so its result (the parsed file and the
diagnostics) is an input here; the function fails exactly when the
diagnostics report errors, wrapping the filename and the diagnostic text
in the error message, and otherwise returns the parsed file. -/
def parseHCLContent (parsed : Body) (diags : Diagnostics) (filename : String) :
    Except String Body :=
  if diags.hasErrors then
    .error ("error parsing HCL content from '" ++ filename ++ "': " ++ diags.text)
  else
    .ok parsed

/-- The parse-then-reorder pipeline over one input: the only fallible
stage is the parse. -/
def runPipeline (e : Block → List String) (allowed : String → Bool)
    (parsed : Body) (diags : Diagnostics) (filename : String) :
    Except String Body :=
  (parseHCLContent parsed diags filename).map (processAndSortBlocks e allowed)

/-! ## Closed forms of the emission loops -/

theorem Body.items_mk (l : List Item) : (Body.mk l).items = l := rfl

theorem Body.mk_items (b : Body) : Body.mk b.items = b := by
  cases b
  rfl

theorem appendNewline_items (b : Body) :
    b.appendNewline.items = b.items ++ [Item.tok Token.nl] := rfl

theorem appendUnstructuredTokens_items (b : Body) (ts : List Token) :
    (b.appendUnstructuredTokens ts).items = b.items ++ ts.map Item.tok := rfl

theorem appendBlock_items (b : Body) (c : Block) :
    (b.appendBlock c).items = b.items ++ [Item.blk c] := rfl

theorem joinNl_cons_cons (r r' : List Item) (rest : List (List Item)) :
    joinNl (r :: r' :: rest) = r ++ Item.tok Token.nl :: joinNl (r' :: rest) := rfl

theorem joinNl_append (xs ys : List (List Item)) (hx : xs ≠ []) (hy : ys ≠ []) :
    joinNl (xs ++ ys) = joinNl xs ++ Item.tok Token.nl :: joinNl ys := by
  induction xs with
  | nil => exact absurd rfl hx
  | cons r rest ih =>
    cases rest with
    | nil =>
      cases ys with
      | nil => exact absurd rfl hy
      | cons y ys' => simp [joinNl]
    | cons r' rest' =>
      rw [List.cons_append, List.cons_append, joinNl_cons_cons,
        joinNl_cons_cons, ← List.cons_append, ih (by simp)]
      simp

theorem appendAttrsLoop_items (attrs : List (String × List Token))
    (names : List String) (b : Body) :
    (appendAttrsLoop attrs names b).items =
      b.items ++ joinNl (names.map (attrRun attrs)) := by
  induction names generalizing b with
  | nil => simp [appendAttrsLoop, joinNl]
  | cons n rest ih =>
    cases rest with
    | nil =>
      simp [appendAttrsLoop, joinNl, appendUnstructuredTokens_items, attrRun]
    | cons n' rest' =>
      rw [appendAttrsLoop, ih]
      simp [joinNl_cons_cons, appendUnstructuredTokens_items,
        appendNewline_items, attrRun]

theorem appendMetaLoop_items (attrs : List (String × List Token))
    (names : List String) (b : Body) :
    (appendMetaLoop attrs names b).items = b.items ++ metaPart attrs names := by
  induction names generalizing b with
  | nil => simp [appendMetaLoop, metaPart]
  | cons n rest ih =>
    rw [appendMetaLoop, ih]
    simp [metaPart, appendUnstructuredTokens_items, appendNewline_items, attrRun]

theorem appendBlocksLoop_items (blocks : List Block) (b : Body) :
    (appendBlocksLoop blocks b).items =
      b.items ++ joinNl (blocks.map fun c => [Item.blk c]) := by
  induction blocks generalizing b with
  | nil => simp [appendBlocksLoop, joinNl]
  | cons c rest ih =>
    cases rest with
    | nil => simp [appendBlocksLoop, joinNl, appendBlock_items]
    | cons c' rest' =>
      rw [appendBlocksLoop, ih]
      simp [joinNl_cons_cons, appendBlock_items, appendNewline_items]

theorem appendOthersLoop_items (hs : Bool) (blocks : List Block) (b : Body) :
    (appendOthersLoop hs blocks b).items =
      b.items ++ joinNl (blocks.map fun c => [Item.blk c]) ++
        (if hs && !blocks.isEmpty then [Item.tok Token.nl] else []) := by
  induction blocks generalizing b with
  | nil => simp [appendOthersLoop, joinNl]
  | cons c rest ih =>
    cases rest with
    | nil =>
      cases hs with
      | false => simp [appendOthersLoop, joinNl, appendBlock_items]
      | true =>
        simp [appendOthersLoop, joinNl, appendBlock_items, appendNewline_items]
    | cons c' rest' =>
      rw [appendOthersLoop, ih]
      simp [joinNl_cons_cons, appendBlock_items, appendNewline_items]

/-- Closed form of the whole rebuilt body of a locals or
required_providers block: a leading newline, the trimmed attribute runs
in sorted-name order separated by single newlines, and a final
newline. -/
theorem rebuildSortedBody_items (attrs : List (String × List Token)) :
    (rebuildSortedBody attrs).items =
      Item.tok Token.nl ::
        (joinNl ((sortedAttrNames attrs).map (attrRun attrs)) ++ [Item.tok Token.nl]) := by
  rw [rebuildSortedBody, appendNewline_items, appendAttrsLoop_items]
  simp [Body.empty, Body.items_mk, appendNewline_items]

/-- Closed form of the body rebuilt by sortResourceParams. -/
theorem sortResourceParams_items (enum : List String) (b : Block) :
    (sortResourceParams enum b).body.items =
      (let attrs := b.body.attributesList
      let blocks := b.body.blocksList
      let namesFirst := resMetas enum
      let names := resNames enum
      Item.tok Token.nl ::
        (metaPart attrs namesFirst ++
          (if namesFirst.length > 0 then [Item.tok Token.nl] else []) ++
          joinNl (names.map (attrRun attrs)) ++
          (if blocks.length > 0 && (names.length > 0 || namesFirst.length > 0)
            then [Item.tok Token.nl, Item.tok Token.nl] else []) ++
          joinNl (blocks.map fun c => [Item.blk c]) ++
          (if enum.contains "depends_on" then
            (if blocks.length > 0 || names.length > 0 || namesFirst.length > 0
              then [Item.tok Token.nl] else []) ++ attrRun attrs "depends_on"
          else []) ++
          [Item.tok Token.nl])) := by
  rw [sortResourceParams]
  simp only [Block.body]
  split_ifs with h1 h2 h3 h4 h5 h6 h7 <;>
    simp_all [appendNewline_items, appendUnstructuredTokens_items,
      appendMetaLoop_items, appendAttrsLoop_items, appendBlocksLoop_items,
      Body.empty, Body.items_mk, attrRun, List.append_assoc]

/-- Closed form of the top-level emission: the other blocks in original
relative order, then the sortable blocks sorted by first label, one
newline token between consecutive blocks and none after the last. -/
theorem processAndSortBlocks_items (e : Block → List String)
    (allowed : String → Bool) (file : Body) :
    (processAndSortBlocks e allowed file).items =
      joinNl ((((topBlocks e file).filter fun b => !isSortable allowed b) ++
          List.insertionSort blockLE
            ((topBlocks e file).filter (isSortable allowed))).map
        fun c => [Item.blk c]) := by
  rw [processAndSortBlocks]
  simp only [appendBlocksLoop_items, appendOthersLoop_items, Body.empty,
    Body.items_mk, List.nil_append]
  rcases hs : List.insertionSort blockLE
      ((topBlocks e file).filter (isSortable allowed)) with _ | ⟨s, srest⟩
  · simp [joinNl]
  · rcases ho : (topBlocks e file).filter fun b => !isSortable allowed b with _ | ⟨o, orest⟩
    · simp [joinNl]
    · rw [List.map_append, joinNl_append _ _ (by simp) (by simp)]
      simp

/-! ## The token-trim step (claim C6) -/

theorem head?_dropWhile_not (p : Token → Bool) (l : List Token) :
    ∀ t, (l.dropWhile p).head? = some t → p t = false := by
  induction l with
  | nil => simp
  | cons a rest ih =>
    intro t h
    by_cases hp : p a
    · rw [List.dropWhile_cons_of_pos hp] at h
      exact ih t h
    · rw [List.dropWhile_cons_of_neg hp] at h
      simp only [List.head?_cons, Option.some.injEq] at h
      subst h
      simpa using hp

theorem trimNewlines_decomposition (ts : List Token) :
    ts = ts.takeWhile Token.isNl ++ trimNewlines ts ++
      ((ts.dropWhile Token.isNl).reverse.takeWhile Token.isNl).reverse := by
  conv_lhs => rw [← List.takeWhile_append_dropWhile Token.isNl ts]
  rw [List.append_assoc]
  congr 1
  conv_lhs => rw [← List.reverse_reverse (ts.dropWhile Token.isNl),
    ← List.takeWhile_append_dropWhile Token.isNl (ts.dropWhile Token.isNl).reverse]
  rw [List.reverse_append]
  rfl

theorem trimNewlines_head (ts : List Token) :
    ∀ t, (trimNewlines ts).head? = some t → t.isNl = false := by
  intro t h
  rw [trimNewlines, List.head?_reverse] at h
  have hsfx : (ts.dropWhile Token.isNl).reverse.dropWhile Token.isNl <:+
      (ts.dropWhile Token.isNl).reverse := List.dropWhile_suffix _
  obtain ⟨pre, hpre⟩ := hsfx
  have hne : (ts.dropWhile Token.isNl).reverse.dropWhile Token.isNl ≠ [] := by
    intro hnil
    rw [hnil] at h
    exact Option.noConfusion h
  have : ((ts.dropWhile Token.isNl).reverse).getLast? = some t := by
    rw [← hpre, List.getLast?_append]
    rw [← h, Option.or_of_isSome]
    rwa [Option.isSome_iff_ne_none, Ne, List.getLast?_eq_none_iff]
  rw [List.getLast?_reverse] at this
  exact head?_dropWhile_not Token.isNl ts t this

theorem trimNewlines_getLast (ts : List Token) :
    ∀ t, (trimNewlines ts).getLast? = some t → t.isNl = false := by
  intro t h
  rw [trimNewlines, List.getLast?_reverse] at h
  exact head?_dropWhile_not Token.isNl _ t h

/-- C6: for any attribute token sequence, the trim step removes exactly
the leading and the trailing run of newline tokens: the input splits as a
leading all-newline run, the returned interior (an unchanged contiguous
subsequence, whatever its interior tokens are), and a trailing
all-newline run, and the returned sequence neither starts nor ends with a
newline token (so the removed runs are maximal and no interior token is
touched). -/
theorem trim_removes_exactly_boundary_newlines (ts : List Token) :
    (∃ lead trail : List Token,
        (∀ t ∈ lead, t.isNl = true) ∧
        (∀ t ∈ trail, t.isNl = true) ∧
        ts = lead ++ trimNewlines ts ++ trail) ∧
      (∀ t, (trimNewlines ts).head? = some t → t.isNl = false) ∧
      (∀ t, (trimNewlines ts).getLast? = some t → t.isNl = false) := by
  refine ⟨⟨ts.takeWhile Token.isNl,
    ((ts.dropWhile Token.isNl).reverse.takeWhile Token.isNl).reverse, ?_, ?_, ?_⟩,
    trimNewlines_head ts, trimNewlines_getLast ts⟩
  · intro t ht
    exact List.mem_takeWhile_imp ht
  · intro t ht
    rw [List.mem_reverse] at ht
    exact List.mem_takeWhile_imp ht
  · exact trimNewlines_decomposition ts

/-! ## Claim C1: the top-level declaration sorter -/

/-- C1: the top-level sorter classifies a declaration as sortable exactly
when its kind is in the allow-set and it has at least one label, and
rebuilds the top-level body as all other declarations first in original
relative order, then the sortable declarations ordered by first label
(the sorted list is a permutation of the sortable ones, sorted under
blockLE, the first-label order), with one blank-line separator token
after each emitted declaration except the last (the joinNl shape). -/
theorem topLevel_sorter_spec (e : Block → List String)
    (allowed : String → Bool) (file : Body) :
    (processAndSortBlocks e allowed file).items =
        joinNl ((((topBlocks e file).filter fun b =>
            !(allowed b.btype && !b.labels.isEmpty)) ++
          List.insertionSort blockLE ((topBlocks e file).filter fun b =>
            allowed b.btype && !b.labels.isEmpty)).map fun c => [Item.blk c]) ∧
      List.Perm
        (List.insertionSort blockLE ((topBlocks e file).filter (isSortable allowed)))
        ((topBlocks e file).filter (isSortable allowed)) ∧
      List.Sorted blockLE
        (List.insertionSort blockLE ((topBlocks e file).filter (isSortable allowed))) := by
  refine ⟨?_, List.perm_insertionSort blockLE _, List.sorted_insertionSort blockLE _⟩
  rw [processAndSortBlocks_items]
  rfl

/-! ## Claim C4: the required_providers sorter -/

/-- C4: the pipeline's first pass routes every terraform declaration
through sortRequiredProvidersInBlock, and that sorter maps the items of
the terraform body so that each direct child of kind required_providers
(independently of its position) gets the rebuilt body: a leading
newline, the trimmed attribute runs ordered by the sorted names
separated by single newlines, and a trailing newline; children of any
other kind and non-block items are untouched.  The sorted name list is a
sorted permutation of the child's attribute names, under the string
order (byte-wise lexicographic on UTF-8 text). -/
theorem requiredProviders_sorter_spec (e : Block → List String) (b : Block)
    (hb : b.btype = "terraform") :
    phase1Block e b = sortRequiredProvidersInBlock b ∧
      (sortRequiredProvidersInBlock b).btype = b.btype ∧
      (sortRequiredProvidersInBlock b).labels = b.labels ∧
      (sortRequiredProvidersInBlock b).body.items = b.body.items.map (fun it =>
        match it with
        | .blk c =>
            if c.btype = "required_providers" then
              .blk (.mk c.btype c.labels (.mk (Item.tok Token.nl ::
                (joinNl ((sortedAttrNames c.body.attributesList).map
                    (attrRun c.body.attributesList)) ++ [Item.tok Token.nl]))))
            else .blk c
        | _ => it) ∧
      (∀ attrs : List (String × List Token),
        List.Sorted nameLE (sortedAttrNames attrs) ∧
          List.Perm (sortedAttrNames attrs) (attrs.map Prod.fst)) := by
  refine ⟨by rw [phase1Block, if_pos hb], rfl, rfl, ?_, fun attrs =>
    ⟨List.sorted_insertionSort _ _, List.perm_insertionSort _ _⟩⟩
  rw [sortRequiredProvidersInBlock]
  simp only [Block.body, Body.items_mk]
  apply List.map_congr_left
  intro it _
  match it with
  | .tok t => rfl
  | .attr n ts => rfl
  | .blk c =>
    by_cases hc : c.btype = "required_providers"
    · simp [rpChildMap_blk, hc, ← rebuildSortedBody_items, Body.mk_items]
      rfl
    · simp [rpChildMap_blk, hc]

/-- A concrete terraform block with a required_providers child holding
two unsorted providers. -/
def tfBlockExample : Block :=
  Block.mk "terraform" []
    (Body.mk [Item.blk (Block.mk "required_providers" []
      (Body.mk [Item.attr "google" [Token.ident "google"],
        Item.attr "aws" [Token.ident "aws"]]))])

/-- Witness for requiredProviders_sorter_spec at a concrete terraform
block with two unsorted providers. -/
theorem requiredProviders_sorter_spec_witness :
    phase1Block (fun _ => []) tfBlockExample =
      sortRequiredProvidersInBlock tfBlockExample :=
  (requiredProviders_sorter_spec (fun _ => []) tfBlockExample rfl).1

/-! ## Claim C10: the rebuilt required_providers body holds only tokens -/

theorem joinNl_all_tok (runs : List (List Item))
    (h : ∀ r ∈ runs, ∀ it ∈ r, ∃ t : Token, it = Item.tok t) :
    ∀ it ∈ joinNl runs, ∃ t : Token, it = Item.tok t := by
  induction runs with
  | nil => simp [joinNl]
  | cons r rest ih =>
    cases rest with
    | nil =>
      intro it hit
      exact h r (by simp) it hit
    | cons r' rest' =>
      intro it hit
      rw [joinNl_cons_cons] at hit
      rcases List.mem_append.mp hit with hit | hit
      · exact h r (by simp) it hit
      · rcases List.mem_cons.mp hit with hit | hit
        · exact ⟨Token.nl, hit⟩
        · exact ih (fun r hr it hit => h r (by simp [hr]) it hit) it hit

/-- C10: after the required_providers sorter runs, the rebuilt body of a
required_providers child consists only of raw token items - the sorted
attribute runs and their separators; in particular no nested block item
(and no other non-token node) survives the clear-and-rebuild, whatever
was in the body before.  The rebuilt child appears in the terraform body
and its items are exactly the leading newline, the sorted runs, and the
trailing newline, all built from attributesList alone. -/
theorem requiredProviders_rebuild_drops_blocks (b c : Block)
    (hc : Item.blk c ∈ b.body.items) (ht : c.btype = "required_providers") :
    Item.blk (Block.mk c.btype c.labels (rebuildSortedBody c.body.attributesList)) ∈
        (sortRequiredProvidersInBlock b).body.items ∧
      (rebuildSortedBody c.body.attributesList).items =
        Item.tok Token.nl ::
          (joinNl ((sortedAttrNames c.body.attributesList).map
              (attrRun c.body.attributesList)) ++ [Item.tok Token.nl]) ∧
      ∀ it ∈ (rebuildSortedBody c.body.attributesList).items,
        ∃ t : Token, it = Item.tok t := by
  refine ⟨?_, rebuildSortedBody_items _, ?_⟩
  · rw [sortRequiredProvidersInBlock]
    simp only [Block.body, Body.items_mk]
    refine List.mem_map.mpr ⟨Item.blk c, hc, ?_⟩
    rw [rpChildMap_blk, if_pos ht, ht]
    rfl
  · intro it hit
    rw [rebuildSortedBody_items] at hit
    rcases List.mem_cons.mp hit with hit | hit
    · exact ⟨Token.nl, hit⟩
    · rcases List.mem_append.mp hit with hit | hit
      · refine joinNl_all_tok _ ?_ it hit
        intro r hr it' hit'
        obtain ⟨n, _, rfl⟩ := List.mem_map.mp hr
        obtain ⟨t, _, rfl⟩ := List.mem_map.mp hit'
        exact ⟨t, rfl⟩
      · rw [List.mem_singleton.mp hit]
        exact ⟨Token.nl, rfl⟩

/-- Witness for requiredProviders_rebuild_drops_blocks: a
required_providers child that contains a stray nested block. -/
def rpChildExample : Block :=
  Block.mk "required_providers" []
    (Body.mk [Item.attr "google" [Token.ident "google"],
      Item.blk (Block.mk "stray" [] (Body.mk [])),
      Item.attr "aws" [Token.ident "aws"]])

def tfWithStrayExample : Block :=
  Block.mk "terraform" [] (Body.mk [Item.blk rpChildExample])

theorem requiredProviders_rebuild_drops_blocks_witness :
    Item.blk (Block.mk rpChildExample.btype rpChildExample.labels
        (rebuildSortedBody rpChildExample.body.attributesList)) ∈
        (sortRequiredProvidersInBlock tfWithStrayExample).body.items ∧
      (rebuildSortedBody rpChildExample.body.attributesList).items =
        Item.tok Token.nl ::
          (joinNl ((sortedAttrNames rpChildExample.body.attributesList).map
              (attrRun rpChildExample.body.attributesList)) ++ [Item.tok Token.nl]) ∧
      ∀ it ∈ (rebuildSortedBody rpChildExample.body.attributesList).items,
        ∃ t : Token, it = Item.tok t :=
  requiredProviders_rebuild_drops_blocks tfWithStrayExample rpChildExample
    (List.mem_singleton.mpr rfl) rfl

/-! ## Claim C9: only the parse can fail -/

/-- C9: the parse step fails exactly when the external parser reports
diagnostics; the error text carries the filename and the diagnostic
text; on success the parse returns the parsed document unchanged and the
reorder stage is total over it: the pipeline result is ok and equals the
reordered document (an empty document, or one with no recognized kinds,
included - no reorder stage can produce an error). -/
theorem parse_only_failure (parsed : Body) (diags : Diagnostics)
    (filename : String) (e : Block → List String) (allowed : String → Bool) :
    ((∃ s, parseHCLContent parsed diags filename = .error s) ↔
        diags.hasErrors = true) ∧
      (diags.hasErrors = true →
        parseHCLContent parsed diags filename =
          .error ("error parsing HCL content from '" ++ filename ++ "': " ++
            diags.text)) ∧
      (diags.hasErrors = false →
        parseHCLContent parsed diags filename = .ok parsed ∧
          runPipeline e allowed parsed diags filename =
            .ok (processAndSortBlocks e allowed parsed)) := by
  refine ⟨⟨?_, ?_⟩, ?_, ?_⟩
  · intro ⟨s, hs⟩
    by_contra hde
    rw [parseHCLContent, if_neg (by simpa using hde)] at hs
    exact Except.noConfusion hs
  · intro hde
    exact ⟨_, by rw [parseHCLContent, if_pos hde]⟩
  · intro hde
    rw [parseHCLContent, if_pos hde]
  · intro hde
    have hok : parseHCLContent parsed diags filename = .ok parsed := by
      rw [parseHCLContent, if_neg (by simp [hde])]
    exact ⟨hok, by rw [runPipeline, hok]; rfl⟩

/-- Witness for parse_only_failure: a failing parse and a succeeding
parse at concrete inputs. -/
theorem parse_only_failure_witness :
    (parseHCLContent (Body.mk []) (Diagnostics.mk true "boom") "main.tf" =
        .error ("error parsing HCL content from '" ++ "main.tf" ++ "': " ++ "boom")) ∧
      runPipeline (fun _ => []) (fun _ => false) (Body.mk [])
          (Diagnostics.mk false "") "main.tf" =
        .ok (processAndSortBlocks (fun _ => []) (fun _ => false) (Body.mk [])) :=
  ⟨(parse_only_failure (Body.mk []) (Diagnostics.mk true "boom") "main.tf"
      (fun _ => []) (fun _ => false)).2.1 rfl,
    ((parse_only_failure (Body.mk []) (Diagnostics.mk false "") "main.tf"
      (fun _ => []) (fun _ => false)).2.2 rfl).2⟩

/-! ## Claim C3: which kinds receive the parameter sorter -/

theorem joinNl_extract (runs : List (List Item)) (r : List Item) (hr : r ∈ runs) :
    ∃ pre post, joinNl runs = pre ++ r ++ post := by
  induction runs with
  | nil => cases hr
  | cons r0 rest ih =>
    cases rest with
    | nil =>
      rw [List.mem_singleton.mp hr]
      exact ⟨[], [], by simp [joinNl]⟩
    | cons r1 rest' =>
      rcases List.mem_cons.mp hr with h | h
      · subst h
        exact ⟨[], Item.tok Token.nl :: joinNl (r1 :: rest'), by
          rw [joinNl_cons_cons]; simp⟩
      · obtain ⟨pre, post, hpp⟩ := ih h
        exact ⟨r0 ++ Item.tok Token.nl :: pre, post, by
          rw [joinNl_cons_cons, hpp]; simp⟩

/-- Every top-level block of the input reappears in the pipeline output
as its first-pass image (at some position). -/
theorem phase1_mem_output (e : Block → List String) (allowed : String → Bool)
    (f : Body) (b : Block) (hmem : Item.blk b ∈ f.items) :
    Item.blk (phase1Block e b) ∈ (processAndSortBlocks e allowed f).items := by
  have h1 : phase1Block e b ∈ topBlocks e f := by
    rw [topBlocks, Body.blocksList, phase1Items, Body.items_mk, List.filterMap_map]
    refine List.mem_filterMap.mpr ⟨Item.blk b, hmem, rfl⟩
  have h2 : phase1Block e b ∈
      ((topBlocks e f).filter fun c => !isSortable allowed c) ++
        List.insertionSort blockLE ((topBlocks e f).filter (isSortable allowed)) := by
    rcases hcase : isSortable allowed (phase1Block e b) with _ | _
    · exact List.mem_append.mpr (Or.inl (List.mem_filter.mpr ⟨h1, by rw [hcase]; rfl⟩))
    · refine List.mem_append.mpr (Or.inr ?_)
      rw [List.Perm.mem_iff (List.perm_insertionSort blockLE _)]
      exact List.mem_filter.mpr ⟨h1, hcase⟩
  obtain ⟨pre, post, hpp⟩ := joinNl_extract _ [Item.blk (phase1Block e b)]
    (List.mem_map_of_mem (fun c => [Item.blk c]) h2)
  rw [processAndSortBlocks_items, hpp]
  simp

/-- C3 (amended): the parameter sorter is applied to resource blocks
only.  A top-level resource block reappears in the pipeline output with
sortResourceParams applied, while a top-level data block (or any block
whose kind is not terraform, resource, or locals) reappears with its
body byte-for-byte untouched. -/
theorem param_sorter_resource_only (e : Block → List String)
    (allowed : String → Bool) (f : Body) (b : Block)
    (hmem : Item.blk b ∈ f.items) :
    (b.btype = "resource" →
        Item.blk (sortResourceParams (e b) b) ∈
          (processAndSortBlocks e allowed f).items) ∧
      (b.btype = "data" →
        Item.blk b ∈ (processAndSortBlocks e allowed f).items) := by
  constructor
  · intro hres
    have := phase1_mem_output e allowed f b hmem
    rwa [phase1Block, if_neg (by rw [hres]; decide), if_pos hres] at this
  · intro hdata
    have := phase1_mem_output e allowed f b hmem
    rwa [phase1Block, if_neg (by rw [hdata]; decide),
      if_neg (by rw [hdata]; decide), if_neg (by rw [hdata]; decide)] at this

/-- The names of the attribute nodes of an item list, used to tell
bodies apart in concrete computations. -/
def itemAttrNames (l : List Item) : List String :=
  l.filterMap fun it =>
    match it with
    | .attr n _ => some n
    | _ => none

/-- A data block whose two attributes are out of lexicographic order. -/
def dataBlockExample : Block :=
  Block.mk "data" ["aws_ami", "x"]
    (Body.mk [Item.attr "b" [Token.ident "b", Token.raw "=2"],
      Item.attr "a" [Token.ident "a", Token.raw "=1"]])

/-- The attribute-map iteration order that follows document order. -/
def canonicalEnum (b : Block) : List String :=
  b.body.attributesList.map Prod.fst

/-- C3 (counterexample): a document holding one data block passes the
pipeline with the data block's body untouched (the attributes stay in
their unsorted document order), and that untouched body differs from
what the parameter sorter would produce, so data block bodies are not
reordered per the style policy. -/
theorem param_sorter_skips_data_counterexample :
    processAndSortBlocks canonicalEnum (fun _ => false)
        (Body.mk [Item.blk dataBlockExample]) =
      Body.mk [Item.blk dataBlockExample] ∧
      (sortResourceParams (canonicalEnum dataBlockExample)
          dataBlockExample).body.items ≠ dataBlockExample.body.items := by
  refine ⟨rfl, fun h => ?_⟩
  exact absurd (congrArg itemAttrNames h) (by decide)

/-- Witness instances of param_sorter_resource_only: a resource block is
re-emitted sorted, a data block is re-emitted untouched. -/
def resBlockExample : Block :=
  Block.mk "resource" ["aws_instance", "y"]
    (Body.mk [Item.attr "a" [Token.ident "a", Token.raw "=1"]])

theorem param_sorter_resource_only_witness :
    (Item.blk (sortResourceParams (canonicalEnum resBlockExample) resBlockExample) ∈
        (processAndSortBlocks canonicalEnum (fun _ => false)
          (Body.mk [Item.blk resBlockExample, Item.blk dataBlockExample])).items) ∧
      Item.blk dataBlockExample ∈
        (processAndSortBlocks canonicalEnum (fun _ => false)
          (Body.mk [Item.blk resBlockExample, Item.blk dataBlockExample])).items :=
  ⟨(param_sorter_resource_only canonicalEnum (fun _ => false)
      (Body.mk [Item.blk resBlockExample, Item.blk dataBlockExample])
      resBlockExample (List.mem_cons_self _ _)).1 rfl,
    (param_sorter_resource_only canonicalEnum (fun _ => false)
      (Body.mk [Item.blk resBlockExample, Item.blk dataBlockExample])
      dataBlockExample
      (List.mem_cons_of_mem _ (List.mem_singleton.mpr rfl))).2 rfl⟩

/-! ## Claim C7: relative order of the leading meta-arguments -/

/-- The identifier tokens appearing among raw token items, in order; on
the rebuilt bodies of the examples below, where each attribute run
starts with the attribute's name identifier and holds no other
identifier token, this reads off the emission order of the
attributes. -/
def identTokensOf (l : List Item) : List String :=
  l.filterMap fun it =>
    match it with
    | .tok (Token.ident s) => some s
    | _ => none

/-- A resource block that carries both leading meta-arguments, count
first in the source. -/
def resBothMetasExample : Block :=
  Block.mk "resource" ["aws_instance", "y"]
    (Body.mk [Item.attr "count" [Token.ident "count", Token.raw "=1"],
      Item.attr "for_each" [Token.ident "for_each", Token.raw "=x"]])

/-- C7 (counterexample): the Go code collects count / for_each by
ranging over the attributes map, whose iteration order is unspecified.
With the legitimate iteration order for_each-before-count (a permutation
of the keys), the rebuilt body emits for_each before count even though
the source order is count before for_each: the emitted order is not the
source encounter order. -/
theorem resource_meta_source_order_counterexample :
    List.Perm ["for_each", "count"]
        (resBothMetasExample.body.attributesList.map Prod.fst) ∧
      (resBothMetasExample.body.attributesList.map Prod.fst).filter
          isLeadingMeta = ["count", "for_each"] ∧
      identTokensOf ((sortResourceParams ["for_each", "count"]
          resBothMetasExample).body.items) = ["for_each", "count"] ∧
      ("for_each" :: "count" :: []) ≠ ("count" :: "for_each" :: []) := by
  refine ⟨by decide, by decide, by decide, by decide⟩

/-- C7 (amended): the leading meta-arguments open the rebuilt body in
the order the range over the attributes map yields them (the enum order,
restricted to count / for_each) - they are never sorted relative to each
other, but that order is the map iteration order, which is unspecified
and need not be the source order. -/
theorem resource_meta_enum_order_amended (enum : List String) (b : Block) :
    ∃ rest, (sortResourceParams enum b).body.items =
      Item.tok Token.nl ::
        (metaPart b.body.attributesList (resMetas enum) ++ rest) := by
  refine ⟨(if (resMetas enum).length > 0 then [Item.tok Token.nl] else []) ++
    (joinNl ((resNames enum).map (attrRun b.body.attributesList)) ++
    ((if b.body.blocksList.length > 0 &&
        ((resNames enum).length > 0 || (resMetas enum).length > 0)
      then [Item.tok Token.nl, Item.tok Token.nl] else []) ++
    (joinNl (b.body.blocksList.map fun c => [Item.blk c]) ++
    ((if enum.contains "depends_on" then
        (if b.body.blocksList.length > 0 || (resNames enum).length > 0 ||
            (resMetas enum).length > 0
          then [Item.tok Token.nl] else []) ++ attrRun b.body.attributesList "depends_on"
      else []) ++
    [Item.tok Token.nl])))), ?_⟩
  rw [sortResourceParams_items]
  simp only [List.append_assoc]

/-! ## Claim C2: the resource body rebuild -/

/-- One rendered line of a body: the non-newline tokens appearing on the
line (the empty list is a blank line), a structured attribute node, or a
nested block (hclwrite block tokens end with their own newline, so a
block item closes its line). -/
inductive Line : Type where
  | toks : List Token → Line
  | attrL : String → List Token → Line
  | blk : Block → Line

/-- Splits an item sequence into rendered lines: newline tokens end the
current line, other tokens accumulate on it, attribute and block nodes
occupy lines of their own. -/
def renderLines : List Item → List Token → List Line
  | [], cur => if cur.isEmpty then [] else [Line.toks cur]
  | Item.tok Token.nl :: rest, cur => Line.toks cur :: renderLines rest []
  | Item.tok t :: rest, cur => renderLines rest (cur ++ [t])
  | Item.attr n ts :: rest, cur =>
      (if cur.isEmpty then [] else [Line.toks cur]) ++
        Line.attrL n ts :: renderLines rest []
  | Item.blk c :: rest, cur =>
      (if cur.isEmpty then [] else [Line.toks cur]) ++
        Line.blk c :: renderLines rest []

/-- A blank rendered line. -/
def blankLine : Line := Line.toks []

/-- Joins line groups with a single blank line between consecutive
groups. -/
def joinBlank : List (List Line) → List Line
  | [] => []
  | [g] => g
  | g :: rest => g ++ blankLine :: joinBlank rest

/-- The rebuilt resource body AS CLAIM C2 DESCRIBES IT, rendered as
lines: the non-empty groups among (a) the leading meta-arguments, (b)
the remaining attributes without depends_on sorted by name, (c) the
nested blocks in original order, (d) the depends_on attribute, each
separated from the previous non-empty group by one blank line (a group
is preceded by a blank line exactly when a prior non-empty group
exists), followed by (e) one trailing blank line.  The leading empty
line is the remnant of the opening-brace line that every rebuilt body
starts with.  This definition follows the claim's words, not the code;
it is compared against the code's emission. -/
def claimC2Lines (enum : List String) (b : Block) : List Line :=
  let attrs := b.body.attributesList
  let metas := enum.filter isLeadingMeta
  let names := List.insertionSort nameLE
    (enum.filter fun n => !isLeadingMeta n && n != "depends_on")
  let groups := [metas.map fun n => Line.toks (trimNewlines (lookupTok n attrs)),
    names.map fun n => Line.toks (trimNewlines (lookupTok n attrs)),
    b.body.blocksList.map Line.blk,
    if enum.contains "depends_on" then
      [Line.toks (trimNewlines (lookupTok "depends_on" attrs))]
    else []]
  blankLine :: (joinBlank (groups.filter fun g => !g.isEmpty) ++ [blankLine])

/-- A resource block with one plain attribute and a depends_on. -/
def resWithDepExample : Block :=
  Block.mk "resource" ["aws_instance", "y"]
    (Body.mk [Item.attr "a" [Token.ident "a", Token.raw "=1"],
      Item.attr "depends_on" [Token.ident "depends_on", Token.raw "=[]"]])

/-- C2 (counterexample): with a body holding exactly one plain attribute
and depends_on, the code renders three lines - the brace remnant, the
attribute line, and the depends_on line directly below it with no blank
line between them and no trailing blank line - while the claim's
description renders five.  The claimed blank-line placement and the
claimed trailing blank line do not match the emission. -/
theorem resource_rebuild_claim_counterexample :
    List.Perm ["a", "depends_on"]
        (resWithDepExample.body.attributesList.map Prod.fst) ∧
      renderLines ((sortResourceParams ["a", "depends_on"]
          resWithDepExample).body.items) [] ≠
        claimC2Lines ["a", "depends_on"] resWithDepExample := by
  refine ⟨by decide, fun h => ?_⟩
  have hlen := congrArg List.length h
  exact absurd hlen (by decide)

/-- C2 (amended): the rebuilt resource body consists, in this order, of
the opening newline; each leading meta-argument's trimmed run followed
by a newline, plus one extra newline if any meta-argument exists; the
remaining attributes except depends_on, sorted by name, their trimmed
runs separated by single newlines; two newlines if there are nested
blocks and any attribute group was non-empty; the nested blocks in
original relative order separated by single newlines; if depends_on was
present, one newline (when anything precedes it) and then its trimmed
run; and one final newline.  Rendered, consecutive attribute groups are
separated by one blank line, but depends_on gets no blank line before it
when it directly follows the sorted attributes, several blank lines can
precede the block group when the sorted-attribute group is empty, and
the body ends in a blank line only when the last emitted item is a
block or the body is empty. -/
theorem resource_rebuild_amended (enum : List String) (b : Block) :
    (sortResourceParams enum b).body.items =
      (let attrs := b.body.attributesList
      let blocks := b.body.blocksList
      let namesFirst := resMetas enum
      let names := resNames enum
      Item.tok Token.nl ::
        (metaPart attrs namesFirst ++
          (if namesFirst.length > 0 then [Item.tok Token.nl] else []) ++
          joinNl (names.map (attrRun attrs)) ++
          (if blocks.length > 0 && (names.length > 0 || namesFirst.length > 0)
            then [Item.tok Token.nl, Item.tok Token.nl] else []) ++
          joinNl (blocks.map fun c => [Item.blk c]) ++
          (if enum.contains "depends_on" then
            (if blocks.length > 0 || names.length > 0 || namesFirst.length > 0
              then [Item.tok Token.nl] else []) ++ attrRun attrs "depends_on"
          else []) ++
          [Item.tok Token.nl])) :=
  sortResourceParams_items enum b

/-! ## Claim C8: content preservation -/

theorem lookupTok_eq_of_mem {attrs : List (String × List Token)} {n : String}
    {ts : List Token} (hmem : (n, ts) ∈ attrs)
    (hnodup : (attrs.map Prod.fst).Nodup) : lookupTok n attrs = ts := by
  induction attrs with
  | nil => cases hmem
  | cons p rest ih =>
    obtain ⟨k, v⟩ := p
    rw [List.map_cons, List.nodup_cons] at hnodup
    rcases List.mem_cons.mp hmem with h | h
    · rw [Prod.mk.injEq] at h
      obtain ⟨h1, h2⟩ := h
      subst h1
      subst h2
      rw [lookupTok, if_pos rfl]
    · have hne : k ≠ n := by
        intro he
        apply hnodup.1
        rw [he]
        exact List.mem_map.mpr ⟨(n, ts), h, rfl⟩
      rw [lookupTok, if_neg hne]
      exact ih h hnodup.2

/-- If a run occurs contiguously inside the middle part of a list, it
occurs contiguously inside the whole list. -/
theorem around_run (A B : List Item) {M run : List Item} (p q : List Item)
    (h : M = p ++ run ++ q) (l : List Item) (hl : l = A ++ M ++ B) :
    ∃ pre post, l = pre ++ (run ++ post) :=
  ⟨A ++ p, q ++ B, by rw [hl, h]; simp [List.append_assoc]⟩

theorem metaPart_cons (attrs : List (String × List Token)) (m : String)
    (names : List String) :
    metaPart attrs (m :: names) =
      attrRun attrs m ++ Item.tok Token.nl :: metaPart attrs names := by
  simp [metaPart]

theorem metaPart_extract (attrs : List (String × List Token))
    (names : List String) (n : String) (hn : n ∈ names) :
    ∃ p q, metaPart attrs names = p ++ attrRun attrs n ++ q := by
  induction names with
  | nil => cases hn
  | cons m rest ih =>
    rcases List.mem_cons.mp hn with h | h
    · subst h
      exact ⟨[], Item.tok Token.nl :: metaPart attrs rest, by
        rw [metaPart_cons]; simp⟩
    · obtain ⟨p, q, hpq⟩ := ih h
      refine ⟨attrRun attrs m ++ Item.tok Token.nl :: p, q, ?_⟩
      rw [metaPart_cons, hpq]
      simp [List.append_assoc]

/-- Membership of a name in the sorted-name list of an attribute
list. -/
theorem mem_sortedAttrNames {attrs : List (String × List Token)} {n : String}
    {ts : List Token} (hmem : (n, ts) ∈ attrs) : n ∈ sortedAttrNames attrs := by
  rw [sortedAttrNames, List.Perm.mem_iff (List.perm_insertionSort nameLE _)]
  exact List.mem_map_of_mem Prod.fst hmem

/-- C8: every reorder pass re-emits each attribute's trimmed token
sequence byte-for-byte.  First conjunct: the rebuild shared by the
locals sorter and the required_providers sorter, whose output body
contains the trimmed tokens of each input attribute as an unchanged
contiguous run (sortLocalsBlock's body is exactly this rebuild -
second conjunct).  Third conjunct: the resource sorter likewise
re-emits each attribute - leading meta-argument, depends_on, or plain -
as its unchanged trimmed run, for every attribute-map iteration order.
Only the position changes; the tokens, including any embedded comment
tokens, are the trimmed originals. -/
theorem content_preservation :
    (∀ (attrs : List (String × List Token)) (n : String) (ts : List Token),
        (n, ts) ∈ attrs → (attrs.map Prod.fst).Nodup →
        ∃ pre post, (rebuildSortedBody attrs).items =
          pre ++ (trimNewlines ts).map Item.tok ++ post) ∧
      (∀ b : Block, (sortLocalsBlock b).body =
        rebuildSortedBody b.body.attributesList) ∧
      (∀ (b : Block) (enum : List String) (n : String) (ts : List Token),
        enum.Perm (b.body.attributesList.map Prod.fst) →
        (b.body.attributesList.map Prod.fst).Nodup →
        (n, ts) ∈ b.body.attributesList →
        ∃ pre post, (sortResourceParams enum b).body.items =
          pre ++ (trimNewlines ts).map Item.tok ++ post) := by
  refine ⟨?_, fun _ => rfl, ?_⟩
  · intro attrs n ts hmem hnodup
    have hrun : attrRun attrs n = (trimNewlines ts).map Item.tok := by
      rw [attrRun, lookupTok_eq_of_mem hmem hnodup]
    obtain ⟨p, q, hpq⟩ := joinNl_extract ((sortedAttrNames attrs).map (attrRun attrs))
      (attrRun attrs n) (List.mem_map_of_mem _ (mem_sortedAttrNames hmem))
    rw [rebuildSortedBody_items, hpq, hrun]
    exact ⟨Item.tok Token.nl :: p, q ++ [Item.tok Token.nl], by simp⟩
  · intro b enum n ts hperm hnodup hmem
    have hrun : attrRun b.body.attributesList n = (trimNewlines ts).map Item.tok := by
      rw [attrRun, lookupTok_eq_of_mem hmem hnodup]
    have hne : n ∈ enum := by
      rw [List.Perm.mem_iff hperm]
      exact List.mem_map_of_mem Prod.fst hmem
    rw [sortResourceParams_items]
    simp only [List.append_assoc]
    by_cases hd : n = "depends_on"
    · subst hd
      have hc : enum.contains "depends_on" = true := by simpa using hne
      rw [hc]
      simp only [if_true]
      rw [hrun]
      exact ⟨Item.tok Token.nl ::
        (metaPart b.body.attributesList (resMetas enum) ++
          ((if (resMetas enum).length > 0 then [Item.tok Token.nl] else []) ++
            (joinNl ((resNames enum).map (attrRun b.body.attributesList)) ++
              ((if b.body.blocksList.length > 0 &&
                    ((resNames enum).length > 0 || (resMetas enum).length > 0)
                  then [Item.tok Token.nl, Item.tok Token.nl] else []) ++
                (joinNl (b.body.blocksList.map fun c => [Item.blk c]) ++
                  (if b.body.blocksList.length > 0 || (resNames enum).length > 0 ||
                      (resMetas enum).length > 0
                    then [Item.tok Token.nl] else [])))))),
        [Item.tok Token.nl], by simp [List.append_assoc]⟩
    · by_cases hm : isLeadingMeta n
      · obtain ⟨p, q, hpq⟩ := metaPart_extract b.body.attributesList
          (resMetas enum) n (List.mem_filter.mpr ⟨hne, hm⟩)
        rw [hrun] at hpq
        refine around_run [Item.tok Token.nl]
          ((if (resMetas enum).length > 0 then [Item.tok Token.nl] else []) ++
            (joinNl ((resNames enum).map (attrRun b.body.attributesList)) ++
              ((if b.body.blocksList.length > 0 &&
                    ((resNames enum).length > 0 || (resMetas enum).length > 0)
                  then [Item.tok Token.nl, Item.tok Token.nl] else []) ++
                (joinNl (b.body.blocksList.map fun c => [Item.blk c]) ++
                  ((if enum.contains "depends_on" then
                      (if b.body.blocksList.length > 0 || (resNames enum).length > 0 ||
                          (resMetas enum).length > 0
                        then [Item.tok Token.nl] else []) ++
                        attrRun b.body.attributesList "depends_on"
                    else []) ++ [Item.tok Token.nl])))))
          p q hpq _ ?_
        simp [List.append_assoc]
      · have hn2 : n ∈ resNames enum := by
          rw [resNames, List.Perm.mem_iff (List.perm_insertionSort nameLE _)]
          refine List.mem_filter.mpr ⟨hne, ?_⟩
          simp [hm, hd]
        obtain ⟨p, q, hpq⟩ := joinNl_extract _ (attrRun b.body.attributesList n)
          (List.mem_map_of_mem _ hn2)
        rw [hrun] at hpq
        refine around_run (Item.tok Token.nl ::
            (metaPart b.body.attributesList (resMetas enum) ++
              (if (resMetas enum).length > 0
                then [Item.tok Token.nl] else [])))
          ((if b.body.blocksList.length > 0 &&
                ((resNames enum).length > 0 || (resMetas enum).length > 0)
              then [Item.tok Token.nl, Item.tok Token.nl] else []) ++
            (joinNl (b.body.blocksList.map fun c => [Item.blk c]) ++
              ((if enum.contains "depends_on" then
                  (if b.body.blocksList.length > 0 || (resNames enum).length > 0 ||
                      (resMetas enum).length > 0
                    then [Item.tok Token.nl] else []) ++
                    attrRun b.body.attributesList "depends_on"
                else []) ++ [Item.tok Token.nl])))
          p q hpq _ ?_
        simp [List.append_assoc]

/-- Witness for content_preservation: the trimmed run of a concrete
attribute reappears unchanged both in a locals-style rebuild and in a
resource rebuild under a non-document iteration order. -/
theorem content_preservation_witness :
    (∃ pre post,
        (rebuildSortedBody [("b", [Token.ident "b"]), ("a", [Token.ident "a"])]).items =
          pre ++ (trimNewlines [Token.ident "a"]).map Item.tok ++ post) ∧
      ∃ pre post,
        (sortResourceParams ["for_each", "count"] resBothMetasExample).body.items =
          pre ++ (trimNewlines [Token.ident "count", Token.raw "=1"]).map Item.tok ++ post :=
  ⟨content_preservation.1 [("b", [Token.ident "b"]), ("a", [Token.ident "a"])]
      "a" [Token.ident "a"] (by decide) (by decide),
    content_preservation.2.2 resBothMetasExample ["for_each", "count"]
      "count" [Token.ident "count", Token.raw "=1"] (by decide) (by decide) (by decide)⟩

/-! ## Claim C5: idempotence of the full reorder pass

The reorder pass emits the sorted bodies as raw token runs; running the
pass again on the same in-memory value would find no attribute nodes.
The spec treats the format / parse adapters as external collaborators
(bytes to editable document and back), so re-running the pass means
formatting, parsing again, and reordering the reparsed document.  The
round trip is modelled below from the spec; reorder is the pass composed
with it. -/

/-- Is the item a newline token node? -/
def isNlItem : Item → Bool
  | .tok Token.nl => true
  | _ => false

/-- Items that survive a format / parse round trip unchanged: attribute
nodes, block nodes, and blank-line newline tokens (which the round trip
normalizes away).  A raw non-newline token at body level has no
structured reading and is outside the modelled domain. -/
def plainItemB : Item → Bool
  | .tok Token.nl => true
  | .tok _ => false
  | .attr _ _ => true
  | .blk _ => true

/-- Modelled from the spec: the serialization boundary of section 4.6
(external format and parse adapters, bytes to editable document and
back).  A maximal newline-free raw token run that starts with an
identifier is an attribute line; parsing it back yields an attribute
node of that name whose BuildTokens sequence is the run followed by the
line's terminating newline.  Any other run has no structured reading
and stays as raw tokens. -/
def flushRun : List Token → List Item
  | [] => []
  | Token.ident n :: rest => [Item.attr n (Token.ident n :: rest ++ [Token.nl])]
  | ts => ts.map Item.tok

/-- Modelled from the spec: reparsing the items of one body.  Newline
tokens close the current raw run, attribute and block nodes pass
through (blocks keep their structure across the round trip), and closed
runs are parsed with flushRun. -/
def restoreItems : List Item → List Token → List Item
  | [], cur => flushRun cur
  | Item.tok Token.nl :: rest, cur => flushRun cur ++ restoreItems rest []
  | Item.tok t :: rest, cur => restoreItems rest (cur ++ [t])
  | Item.attr n ts :: rest, cur => flushRun cur ++ Item.attr n ts :: restoreItems rest []
  | Item.blk c :: rest, cur => flushRun cur ++ Item.blk c :: restoreItems rest []

/-- Modelled from the spec: round trip of one body, children untouched. -/
def restoreBody0 (b : Body) : Body := .mk (restoreItems b.items [])

/-- Modelled from the spec: round trip of a body item one level down -
the bodies of direct child blocks are themselves reparsed. -/
def restoreChildMap : Item → Item
  | .blk c => .blk (.mk c.btype c.labels (restoreBody0 c.body))
  | it => it

/-- Modelled from the spec: round trip of one top-level block - its own
body and, one level down, the bodies of its direct children (the sorters
reach exactly that depth). -/
def restoreBlock1 (b : Block) : Block :=
  .mk b.btype b.labels (.mk ((restoreItems b.body.items []).map restoreChildMap))

theorem restoreChildMap_blk (c : Block) :
    restoreChildMap (Item.blk c) =
      Item.blk (Block.mk c.btype c.labels (restoreBody0 c.body)) := rfl

/-- Modelled from the spec: round trip of the whole document; top-level
separator newlines disappear, top-level blocks are restored. -/
def topMapItem : Item → Option Item
  | .tok _ => none
  | .blk c => some (.blk (restoreBlock1 c))
  | it => some it

def restoreTop (f : Body) : Body :=
  .mk (f.items.filterMap topMapItem)

/-- The full reorder pass between round trips: what running the tool on
a file and reading the result back yields. -/
def reorder (e : Block → List String) (allowed : String → Bool) (f : Body) : Body :=
  restoreTop (processAndSortBlocks e allowed f)

/-- Every enum choice must enumerate the keys of the attributes map of
the block it is asked about: the range over a Go map yields each key
exactly once, in an unspecified order. -/
def EnumOK (e : Block → List String) : Prop :=
  ∀ b : Block, (e b).Perm (b.body.attributesList.map Prod.fst)

/-! ### Basic restore lemmas -/

theorem restoreItems_nil : restoreItems [] [] = [] := rfl

theorem restoreItems_nl (X : List Item) :
    restoreItems (Item.tok Token.nl :: X) [] = restoreItems X [] := by
  rw [restoreItems]
  rfl

theorem restoreItems_attr (n : String) (ts : List Token) (X : List Item) :
    restoreItems (Item.attr n ts :: X) [] = Item.attr n ts :: restoreItems X [] := by
  rw [restoreItems]
  rfl

theorem restoreItems_blk (c : Block) (X : List Item) :
    restoreItems (Item.blk c :: X) [] = Item.blk c :: restoreItems X [] := by
  rw [restoreItems]
  rfl

theorem restoreItems_accum (ts : List Token) (X : List Item) (cur : List Token)
    (h : Token.nl ∉ ts) :
    restoreItems (ts.map Item.tok ++ X) cur = restoreItems X (cur ++ ts) := by
  induction ts generalizing cur with
  | nil => simp
  | cons t rest ih =>
    have ht : t ≠ Token.nl := fun he => h (he ▸ List.mem_cons_self t rest)
    rw [List.map_cons, List.cons_append]
    have hstep : restoreItems (Item.tok t :: (rest.map Item.tok ++ X)) cur =
        restoreItems (rest.map Item.tok ++ X) (cur ++ [t]) := by
      cases t with
      | nl => exact absurd rfl ht
      | ident s =>
        rw [restoreItems]
        exact fun hh => Token.noConfusion hh
      | comment s =>
        rw [restoreItems]
        exact fun hh => Token.noConfusion hh
      | raw s =>
        rw [restoreItems]
        exact fun hh => Token.noConfusion hh
    rw [hstep, ih (cur ++ [t]) (fun hm => h (List.mem_cons_of_mem t hm)),
      List.append_assoc]
    rfl

/-- All-newline filler chunks (the conditional separator emissions) are
transparent to the round trip. -/
theorem restoreItems_nlRun (ns X : List Item)
    (h : ∀ it ∈ ns, it = Item.tok Token.nl) :
    restoreItems (ns ++ X) [] = restoreItems X [] := by
  induction ns with
  | nil => simp
  | cons a rest ih =>
    rw [h a (List.mem_cons_self a rest), List.cons_append, restoreItems_nl]
    exact ih fun it hm => h it (List.mem_cons_of_mem a hm)

/-! ### Wellformedness of the modelled round-trip domain -/

/-- Does the attribute's BuildTokens sequence trim to an identifier-led
single-line run (the shape `name = expr` on one line)?  This is the
domain on which the modelled parse adapter reads an emitted run back as
the same attribute; multi-line expressions are outside the model. -/
def attrWFB (n : String) (ts : List Token) : Bool :=
  match trimNewlines ts with
  | Token.ident m :: rest => m == n && !(rest.contains Token.nl)
  | _ => false

/-- A body whose attributes a sorter may rebuild: unique names,
wellformed token runs. -/
def BodySorterWF (b : Body) : Prop :=
  (b.attributesList.map Prod.fst).Nodup ∧
    ∀ p ∈ b.attributesList, attrWFB p.1 p.2 = true

instance (b : Body) : Decidable (BodySorterWF b) := by
  rw [BodySorterWF]
  infer_instance

/-- At most one of the two leading meta-arguments is present. -/
def AtMostOneMeta (b : Body) : Prop :=
  ¬("count" ∈ b.attributesList.map Prod.fst ∧
    "for_each" ∈ b.attributesList.map Prod.fst)

instance (b : Body) : Decidable (AtMostOneMeta b) := by
  rw [AtMostOneMeta]
  infer_instance

/-- Items of a parsed, untouched body in the modelled domain: attribute
nodes, block nodes, blank-line newlines. -/
def PlainItems (l : List Item) : Prop := ∀ it ∈ l, plainItemB it = true

instance (l : List Item) : Decidable (PlainItems l) := by
  rw [PlainItems]
  exact List.decidableBAll _ l

/-- Is the item an attribute or block node (no raw token at all)? -/
def noTokItemB : Item → Bool
  | .tok _ => false
  | _ => true

/-- Bodies carried through the round trip unchanged: only attribute and
block nodes (the modelled parse represents blank lines as trivia on
those nodes, not as standalone items). -/
def NoTokItems (l : List Item) : Prop := ∀ it ∈ l, noTokItemB it = true

instance (l : List Item) : Decidable (NoTokItems l) := by
  rw [NoTokItems]
  exact List.decidableBAll _ l

/-- What the round-trip model needs of one top-level block, by kind:
bodies that a sorter rebuilds must be sorter-wellformed (for resource
blocks, with at most one leading meta-argument), everything that is
carried through unchanged must be plain. -/
def TopBlockWF (b : Block) : Prop :=
  (b.btype = "terraform" →
      NoTokItems b.body.items ∧
        ∀ c ∈ b.body.blocksList,
          (c.btype = "required_providers" → BodySorterWF c.body) ∧
            (c.btype ≠ "required_providers" → NoTokItems c.body.items)) ∧
    (b.btype = "resource" →
      BodySorterWF b.body ∧ AtMostOneMeta b.body ∧
        ∀ c ∈ b.body.blocksList, NoTokItems c.body.items) ∧
    (b.btype = "locals" → BodySorterWF b.body) ∧
    (b.btype ≠ "terraform" → b.btype ≠ "resource" → b.btype ≠ "locals" →
      NoTokItems b.body.items ∧
        ∀ c ∈ b.body.blocksList, NoTokItems c.body.items)

instance (b : Block) : Decidable (TopBlockWF b) := by
  rw [TopBlockWF]
  infer_instance

/-- Round-trip wellformedness of an item. -/
def TopItemWF : Item → Prop
  | .blk b => TopBlockWF b
  | _ => True

instance : DecidablePred TopItemWF := fun it =>
  match it with
  | .blk b => inferInstanceAs (Decidable (TopBlockWF b))
  | .tok _ => .isTrue trivial
  | .attr _ _ => .isTrue trivial

/-- Round-trip wellformedness of a document. -/
def DocWF (f : Body) : Prop := ∀ it ∈ f.items, TopItemWF it

instance (f : Body) : Decidable (DocWF f) := by
  rw [DocWF]
  exact List.decidableBAll _ f.items

/-! ### Restoring one emitted attribute run -/

/-- The attribute node the round trip reads back from an emitted run. -/
def mkAttr (attrs : List (String × List Token)) (n : String) : Item :=
  Item.attr n (trimNewlines (lookupTok n attrs) ++ [Token.nl])

theorem attrWFB_elim {n : String} {ts : List Token}
    (h : attrWFB n ts = true) :
    ∃ rest, trimNewlines ts = Token.ident n :: rest ∧ Token.nl ∉ rest := by
  rw [attrWFB] at h
  rcases htr : trimNewlines ts with _ | ⟨t, rest⟩
  · rw [htr] at h
    exact absurd h (by simp)
  · rw [htr] at h
    cases t with
    | ident m =>
      simp only [Bool.and_eq_true, beq_iff_eq, Bool.not_eq_true'] at h
      refine ⟨rest, by rw [h.1], ?_⟩
      simpa using h.2
    | nl => exact absurd h (by simp)
    | comment s => exact absurd h (by simp)
    | raw s => exact absurd h (by simp)

theorem restoreItems_run {n : String} {ts : List Token}
    (h : attrWFB n ts = true) (X : List Item) :
    restoreItems ((trimNewlines ts).map Item.tok ++ Item.tok Token.nl :: X) [] =
      Item.attr n (trimNewlines ts ++ [Token.nl]) :: restoreItems X [] := by
  obtain ⟨rest, htr, hnl⟩ := attrWFB_elim h
  rw [htr]
  have hnomem : Token.nl ∉ Token.ident n :: rest := by
    intro hm
    rcases List.mem_cons.mp hm with h' | h'
    · exact Token.noConfusion h'
    · exact hnl h'
  rw [restoreItems_accum _ _ [] hnomem, List.nil_append, restoreItems, flushRun]
  rfl

/-- A sequence with no newline at either end regains itself when the
line's terminating newline is trimmed away again. -/
theorem trim_of_clean (u : List Token)
    (h1 : ∀ x, u.head? = some x → x.isNl = false)
    (h2 : ∀ x, u.getLast? = some x → x.isNl = false) :
    trimNewlines (u ++ [Token.nl]) = u := by
  cases u with
  | nil => rfl
  | cons t rest =>
    have ht : t.isNl = false := h1 t rfl
    have key : List.dropWhile Token.isNl (rest.reverse ++ [t]) = rest.reverse ++ [t] := by
      rcases hr : rest.reverse with _ | ⟨y, ys⟩
      · exact List.dropWhile_cons_of_neg (by simp [ht])
      · have hrest : rest ≠ [] := by
          intro hre
          rw [hre, List.reverse_nil] at hr
          exact List.noConfusion hr
        have hy : y.isNl = false := by
          refine h2 y ?_
          obtain ⟨r0, rest', rfl⟩ := List.exists_cons_of_ne_nil hrest
          rw [List.getLast?_cons_cons, ← List.head?_reverse, hr]
          rfl
        rw [List.cons_append]
        exact List.dropWhile_cons_of_neg (by simp [hy])
    rw [trimNewlines, List.cons_append, List.dropWhile_cons_of_neg (by simp [ht]),
      List.reverse_cons, List.reverse_append, List.reverse_singleton,
      List.singleton_append, List.cons_append,
      List.dropWhile_cons_of_pos (by simp [Token.isNl]), key,
      List.reverse_append, List.reverse_reverse]
    simp

/-- Trimming is stable across the round trip: the reparsed attribute's
tokens trim back to the originally emitted run. -/
theorem trim_append_nl (ts : List Token) :
    trimNewlines (trimNewlines ts ++ [Token.nl]) = trimNewlines ts :=
  trim_of_clean (trimNewlines ts) (trimNewlines_head ts) (trimNewlines_getLast ts)

theorem metaPart_nil (attrs : List (String × List Token)) :
    metaPart attrs [] = [] := rfl

theorem restoreItems_joinRuns (attrs : List (String × List Token))
    (names : List String) (X : List Item)
    (h : ∀ n ∈ names, attrWFB n (lookupTok n attrs) = true) :
    restoreItems (joinNl (names.map (attrRun attrs)) ++ Item.tok Token.nl :: X) [] =
      names.map (mkAttr attrs) ++ restoreItems X [] := by
  induction names with
  | nil =>
    rw [List.map_nil]
    show restoreItems (joinNl [] ++ Item.tok Token.nl :: X) [] = _
    rw [joinNl, List.nil_append, restoreItems_nl, List.map_nil, List.nil_append]
  | cons n rest ih =>
    cases rest with
    | nil =>
      show restoreItems (joinNl [attrRun attrs n] ++ Item.tok Token.nl :: X) [] = _
      rw [joinNl, attrRun,
        restoreItems_run (h n (List.mem_cons_self n [])) X]
      rfl
    | cons n' rest' =>
      simp only [List.map_cons]
      rw [joinNl_cons_cons, List.append_assoc, List.cons_append,
        attrRun, restoreItems_run (h n (List.mem_cons_self n _)) _]
      have hih := ih fun m hm => h m (List.mem_cons_of_mem n hm)
      simp only [List.map_cons] at hih
      rw [hih]
      rfl

theorem restoreItems_metaPart (attrs : List (String × List Token))
    (ms : List String) (X : List Item)
    (h : ∀ n ∈ ms, attrWFB n (lookupTok n attrs) = true) :
    restoreItems (metaPart attrs ms ++ X) [] =
      ms.map (mkAttr attrs) ++ restoreItems X [] := by
  induction ms with
  | nil => rw [metaPart_nil, List.nil_append, List.map_nil, List.nil_append]
  | cons m rest ih =>
    rw [metaPart_cons, List.append_assoc, List.cons_append, attrRun,
      restoreItems_run (h m (List.mem_cons_self m _)) _]
    rw [ih fun m' hm => h m' (List.mem_cons_of_mem m hm)]
    rfl

theorem restoreItems_blocksJoin (bs : List Block) (X : List Item) :
    restoreItems (joinNl (bs.map fun c => [Item.blk c]) ++ Item.tok Token.nl :: X) [] =
      bs.map Item.blk ++ restoreItems X [] := by
  induction bs with
  | nil =>
    rw [List.map_nil]
    show restoreItems (joinNl [] ++ Item.tok Token.nl :: X) [] = _
    rw [joinNl, List.nil_append, restoreItems_nl, List.map_nil, List.nil_append]
  | cons c rest ih =>
    cases rest with
    | nil =>
      show restoreItems (joinNl [[Item.blk c]] ++ Item.tok Token.nl :: X) [] = _
      rw [joinNl]
      rw [show ([Item.blk c] : List Item) ++ Item.tok Token.nl :: X =
        Item.blk c :: Item.tok Token.nl :: X from rfl]
      rw [restoreItems_blk, restoreItems_nl]
      rfl
    | cons c' rest' =>
      simp only [List.map_cons, joinNl_cons_cons, List.cons_append, List.nil_append,
        List.append_assoc]
      rw [restoreItems_blk, restoreItems_nl]
      have hih := ih
      simp only [List.map_cons] at hih
      rw [hih]
      rfl

/-- Emitted newline-free raw runs never occur in a plain body: restoring
it just drops the blank-line newlines. -/
def dropNlItems (l : List Item) : List Item := l.filter fun it => !isNlItem it

theorem restoreItems_plain (l : List Item) (h : PlainItems l) :
    restoreItems l [] = dropNlItems l := by
  induction l with
  | nil => rfl
  | cons it rest ih =>
    have hrest : PlainItems rest := fun it' hm => h it' (List.mem_cons_of_mem it hm)
    cases it with
    | tok t =>
      cases t with
      | nl =>
        rw [restoreItems_nl, ih hrest]
        simp [dropNlItems, isNlItem]
      | ident s => exact absurd (h _ (List.mem_cons_self _ _)) (by simp [plainItemB])
      | comment s => exact absurd (h _ (List.mem_cons_self _ _)) (by simp [plainItemB])
      | raw s => exact absurd (h _ (List.mem_cons_self _ _)) (by simp [plainItemB])
    | attr n ts =>
      rw [restoreItems_attr, ih hrest]
      simp [dropNlItems, isNlItem]
    | blk c =>
      rw [restoreItems_blk, ih hrest]
      simp [dropNlItems, isNlItem]

theorem dropNlItems_idem (l : List Item) :
    dropNlItems (dropNlItems l) = dropNlItems l := by
  rw [dropNlItems, dropNlItems, List.filter_filter]
  simp

theorem PlainItems_dropNl {l : List Item} (h : PlainItems l) :
    PlainItems (dropNlItems l) := fun it hm =>
  h it (List.mem_of_mem_filter hm)

end Tfsort
namespace Tfsort

theorem joinNl_nil : joinNl [] = ([] : List Item) := rfl

theorem ite_nl_mem {c : Prop} [Decidable c] :
    ∀ it ∈ (if c then [Item.tok Token.nl] else []), it = Item.tok Token.nl := by
  intro it hit
  split at hit
  · simpa using hit
  · cases hit

theorem ite_nl2_mem {c : Prop} [Decidable c] :
    ∀ it ∈ (if c then [Item.tok Token.nl, Item.tok Token.nl] else []),
      it = Item.tok Token.nl := by
  intro it hit
  split at hit
  · rcases List.mem_cons.mp hit with h | h
    · exact h
    · simpa using h
  · cases hit

theorem wf_names {attrs : List (String × List Token)}
    (hnd : (attrs.map Prod.fst).Nodup)
    (hwf : ∀ p ∈ attrs, attrWFB p.1 p.2 = true) :
    ∀ n ∈ attrs.map Prod.fst, attrWFB n (lookupTok n attrs) = true := by
  intro n hn
  obtain ⟨⟨n', ts⟩, hp, he⟩ := List.mem_map.mp hn
  have he' : n' = n := he
  subst he'
  rw [lookupTok_eq_of_mem hp hnd]
  exact hwf _ hp

theorem restore_resource_soup (e : List String) (b : Block)
    (hnd : (b.body.attributesList.map Prod.fst).Nodup)
    (hwf : ∀ p ∈ b.body.attributesList, attrWFB p.1 p.2 = true)
    (hperm : e.Perm (b.body.attributesList.map Prod.fst)) :
    restoreItems (sortResourceParams e b).body.items [] =
      (resMetas e).map (mkAttr b.body.attributesList) ++
        ((resNames e).map (mkAttr b.body.attributesList) ++
          (b.body.blocksList.map Item.blk ++
            (if e.contains "depends_on" then
              [mkAttr b.body.attributesList "depends_on"] else []))) := by
  have hkey : ∀ n ∈ e, attrWFB n (lookupTok n b.body.attributesList) = true :=
    fun n hn => wf_names hnd hwf n (hperm.subset hn)
  have hmetas : ∀ n ∈ resMetas e, attrWFB n (lookupTok n b.body.attributesList) = true :=
    fun n hn => hkey n (List.mem_of_mem_filter hn)
  have hnames2 : ∀ n ∈ resNames e, attrWFB n (lookupTok n b.body.attributesList) = true := by
    intro n hn
    rw [resNames, List.Perm.mem_iff (List.perm_insertionSort nameLE _)] at hn
    exact hkey n (List.mem_of_mem_filter hn)
  rw [sortResourceParams_items]
  simp only [List.append_assoc]
  rw [restoreItems_nl]
  rw [restoreItems_metaPart _ _ _ hmetas]
  refine congrArg (fun x => (resMetas e).map (mkAttr b.body.attributesList) ++ x) ?_
  rw [restoreItems_nlRun _ _ ite_nl_mem]
  rcases hnames : resNames e with _ | ⟨n0, ns0⟩
  · -- no plain attributes: filler before the blocks is newline-only
    rw [List.map_nil, joinNl_nil, List.nil_append, restoreItems_nlRun _ _ ite_nl2_mem,
      List.map_nil, List.nil_append]
    rcases hbl : b.body.blocksList with _ | ⟨c0, bs0⟩
    · rw [List.map_nil, joinNl_nil, List.nil_append, List.map_nil, List.nil_append]
      rcases hdep : e.contains "depends_on" with _ | _
      · simp only [Bool.false_eq_true, if_false, List.nil_append, restoreItems_nl,
          restoreItems_nil]
      · simp only [if_true]
        rw [List.append_assoc, restoreItems_nlRun _ _ ite_nl_mem, attrRun,
          restoreItems_run (hkey "depends_on" (by simpa using hdep)) [],
          restoreItems_nil]
        rfl
    · -- blocks present, no plain attributes
      rcases hdep : e.contains "depends_on" with _ | _
      · simp only [Bool.false_eq_true, if_false, List.nil_append]
        rw [restoreItems_blocksJoin _ [], restoreItems_nil, List.append_nil,
          List.map_cons]
      · simp only [if_true]
        rw [if_pos (by simp)]
        simp only [List.append_assoc, List.cons_append, List.singleton_append,
          List.nil_append]
        rw [restoreItems_blocksJoin, attrRun,
          restoreItems_run (hkey "depends_on" (by simpa using hdep)) [],
          restoreItems_nil]
        try simp [mkAttr]
  · -- plain attributes present
    have hwfc : ∀ n ∈ n0 :: ns0, attrWFB n (lookupTok n b.body.attributesList) = true :=
      hnames ▸ hnames2
    rcases hbl : b.body.blocksList with _ | ⟨c0, bs0⟩
    · rw [if_neg (by simp), List.map_nil, joinNl_nil]
      rcases hdep : e.contains "depends_on" with _ | _
      · simp only [Bool.false_eq_true, if_false, List.nil_append]
        rw [restoreItems_joinRuns _ _ _ hwfc, restoreItems_nil]
        try simp [mkAttr]
      · simp only [if_true]
        rw [if_pos (by simp)]
        simp only [List.append_assoc, List.cons_append, List.singleton_append,
          List.nil_append]
        rw [restoreItems_joinRuns _ _ _ hwfc, attrRun,
          restoreItems_run (hkey "depends_on" (by simpa using hdep)) [],
          restoreItems_nil]
        try simp [mkAttr]
    · rw [if_pos (by simp)]
      simp only [List.append_assoc, List.cons_append, List.singleton_append,
        List.nil_append]
      rw [restoreItems_joinRuns _ _ _ hwfc, restoreItems_nl]
      rcases hdep : e.contains "depends_on" with _ | _
      · simp only [Bool.false_eq_true, if_false, List.nil_append]
        rw [restoreItems_blocksJoin _ [], restoreItems_nil, List.append_nil]
        try simp [mkAttr]
      · simp only [if_true]
        rw [if_pos (by simp)]
        simp only [List.append_assoc, List.cons_append, List.singleton_append,
          List.nil_append]
        rw [restoreItems_blocksJoin, attrRun,
          restoreItems_run (hkey "depends_on" (by simpa using hdep)) [],
          restoreItems_nil]
        try simp [mkAttr]

end Tfsort

namespace Tfsort

theorem Block.mk_eta (b : Block) : Block.mk b.btype b.labels b.body = b := by
  cases b
  rfl

theorem Body.eq_of_items {b₁ b₂ : Body} (h : b₁.items = b₂.items) : b₁ = b₂ := by
  cases b₁
  cases b₂
  simpa using h

theorem restoreItems_noTok (l : List Item) (h : NoTokItems l) :
    restoreItems l [] = l := by
  induction l with
  | nil => rfl
  | cons it rest ih =>
    have hrest : NoTokItems rest := fun it' hm => h it' (List.mem_cons_of_mem it hm)
    cases it with
    | tok t => exact absurd (h _ (List.mem_cons_self _ _)) (by simp [noTokItemB])
    | attr n ts => rw [restoreItems_attr, ih hrest]
    | blk c => rw [restoreItems_blk, ih hrest]

/-- Blocks in the modelled no-raw-token domain round-trip to themselves. -/
theorem restoreBlock1_id (b : Block) (h1 : NoTokItems b.body.items)
    (h2 : ∀ c ∈ b.body.blocksList, NoTokItems c.body.items) :
    restoreBlock1 b = b := by
  rw [restoreBlock1, restoreItems_noTok _ h1]
  have hmap : b.body.items.map restoreChildMap = b.body.items := by
    conv_rhs => rw [show b.body.items = b.body.items.map id from (List.map_id _).symm]
    refine List.map_congr_left ?_
    intro it hit
    cases it with
    | tok t => rfl
    | attr n ts => rfl
    | blk c =>
      have hc : NoTokItems c.body.items := h2 c (by
        rw [Body.blocksList]
        exact List.mem_filterMap.mpr ⟨Item.blk c, hit, rfl⟩)
      rw [restoreChildMap_blk, restoreBody0, restoreItems_noTok _ hc, Body.mk_items,
        Block.mk_eta]
      rfl
  rw [hmap, Body.mk_items, Block.mk_eta]

theorem restore_rebuildSorted (attrs : List (String × List Token))
    (hnd : (attrs.map Prod.fst).Nodup)
    (hwf : ∀ p ∈ attrs, attrWFB p.1 p.2 = true) :
    restoreItems (rebuildSortedBody attrs).items [] =
      (sortedAttrNames attrs).map (mkAttr attrs) := by
  have hkeys : ∀ n ∈ sortedAttrNames attrs, attrWFB n (lookupTok n attrs) = true := by
    intro n hn
    rw [sortedAttrNames, List.Perm.mem_iff (List.perm_insertionSort nameLE _)] at hn
    exact wf_names hnd hwf n hn
  rw [rebuildSortedBody_items, restoreItems_nl,
    restoreItems_joinRuns _ _ _ hkeys, restoreItems_nil, List.append_nil]

end Tfsort

namespace Tfsort

theorem lookupTok_map_mk (names : List String) (f : String → List Token)
    (n : String) (hn : n ∈ names) (hnd : names.Nodup) :
    lookupTok n (names.map fun m => (m, f m)) = f n := by
  induction names with
  | nil => cases hn
  | cons m rest ih =>
    rw [List.map_cons, lookupTok]
    rw [List.nodup_cons] at hnd
    rcases List.mem_cons.mp hn with h | h
    · subst h
      rw [if_pos rfl]
    · rw [if_neg (by intro he; subst he; exact hnd.1 h)]
      exact ih h hnd.2

theorem attributesList_mkAttrs (names : List String)
    (attrs : List (String × List Token)) :
    (Body.mk (names.map (mkAttr attrs))).attributesList =
      names.map fun n => (n, trimNewlines (lookupTok n attrs) ++ [Token.nl]) := by
  induction names with
  | nil => rfl
  | cons n rest ih =>
    rw [List.map_cons, List.map_cons]
    rw [Body.attributesList, Body.items_mk] at ih ⊢
    rw [List.filterMap_cons]
    simpa [mkAttr] using ih

theorem blocksList_mkAttrs (names : List String)
    (attrs : List (String × List Token)) :
    (Body.mk (names.map (mkAttr attrs))).blocksList = [] := by
  induction names with
  | nil => rfl
  | cons n rest ih =>
    rw [List.map_cons]
    rw [Body.blocksList, Body.items_mk] at ih ⊢
    rw [List.filterMap_cons]
    simpa [mkAttr] using ih

theorem restoreChildMap_attrs (names : List String)
    (attrs : List (String × List Token)) :
    (names.map (mkAttr attrs)).map restoreChildMap = names.map (mkAttr attrs) := by
  rw [List.map_map]
  refine List.map_congr_left fun n _ => ?_
  rfl

theorem rebuild_restored (attrs : List (String × List Token))
    (hnd : (attrs.map Prod.fst).Nodup)
    (hwf : ∀ p ∈ attrs, attrWFB p.1 p.2 = true) :
    rebuildSortedBody ((sortedAttrNames attrs).map fun n =>
      (n, trimNewlines (lookupTok n attrs) ++ [Token.nl])) =
      rebuildSortedBody attrs := by
  have hperm : (sortedAttrNames attrs).Perm (attrs.map Prod.fst) :=
    List.perm_insertionSort nameLE _
  have hnd2 : (sortedAttrNames attrs).Nodup := (hperm.nodup_iff).mpr hnd
  apply Body.eq_of_items
  rw [rebuildSortedBody_items, rebuildSortedBody_items]
  have hkeys : ((sortedAttrNames attrs).map fun n =>
      (n, trimNewlines (lookupTok n attrs) ++ [Token.nl])).map Prod.fst =
      sortedAttrNames attrs := by
    rw [List.map_map]
    conv_rhs => rw [show sortedAttrNames attrs =
      (sortedAttrNames attrs).map id from (List.map_id _).symm]
    exact List.map_congr_left fun n _ => rfl
  have hsorted : sortedAttrNames ((sortedAttrNames attrs).map fun n =>
      (n, trimNewlines (lookupTok n attrs) ++ [Token.nl])) = sortedAttrNames attrs := by
    rw [sortedAttrNames, hkeys]
    exact List.Sorted.insertionSort_eq
      (List.sorted_insertionSort nameLE (attrs.map Prod.fst))
  rw [hsorted]
  have hruns : (sortedAttrNames attrs).map
      (attrRun ((sortedAttrNames attrs).map fun n =>
        (n, trimNewlines (lookupTok n attrs) ++ [Token.nl]))) =
      (sortedAttrNames attrs).map (attrRun attrs) := by
    refine List.map_congr_left fun n hn => ?_
    rw [attrRun, attrRun, lookupTok_map_mk _ _ n hn hnd2, trim_append_nl]
  rw [hruns]

/-- The locals sorter reproduces its own output across the round trip. -/
theorem sortLocals_roundtrip (b : Block) (hwf : BodySorterWF b.body) :
    sortLocalsBlock (restoreBlock1 (sortLocalsBlock b)) = sortLocalsBlock b := by
  obtain ⟨hnd, hwfa⟩ := hwf
  have hrest : restoreBlock1 (sortLocalsBlock b) =
      Block.mk b.btype b.labels
        (Body.mk ((sortedAttrNames b.body.attributesList).map
          (mkAttr b.body.attributesList))) := by
    show Block.mk b.btype b.labels
        (Body.mk ((restoreItems (rebuildSortedBody b.body.attributesList).items []).map
          restoreChildMap)) = _
    rw [restore_rebuildSorted _ hnd hwfa, restoreChildMap_attrs]
  rw [hrest, sortLocalsBlock]
  show Block.mk b.btype b.labels _ = _
  rw [sortLocalsBlock]
  show _ = Block.mk b.btype b.labels (rebuildSortedBody b.body.attributesList)
  rw [show (Block.mk b.btype b.labels
      (Body.mk ((sortedAttrNames b.body.attributesList).map
        (mkAttr b.body.attributesList)))).body =
    Body.mk ((sortedAttrNames b.body.attributesList).map
      (mkAttr b.body.attributesList)) from rfl]
  rw [attributesList_mkAttrs, rebuild_restored _ hnd hwfa]

end Tfsort

namespace Tfsort

/-- Primed unfoldings of the child maps on explicit blocks. -/
theorem rpChildMap_blk' (t : String) (l : List String) (bd : Body) :
    rpChildMap (Item.blk (Block.mk t l bd)) =
      if t = "required_providers" then
        Item.blk (Block.mk t l (rebuildSortedBody bd.attributesList))
      else Item.blk (Block.mk t l bd) := rfl

theorem restoreChildMap_blk' (t : String) (l : List String) (bd : Body) :
    restoreChildMap (Item.blk (Block.mk t l bd)) =
      Item.blk (Block.mk t l (restoreBody0 bd)) := rfl

/-- The required_providers sorter reproduces its own output across the
round trip. -/
theorem sortRP_roundtrip (b : Block)
    (h1 : NoTokItems b.body.items)
    (h2 : ∀ c ∈ b.body.blocksList,
      (c.btype = "required_providers" → BodySorterWF c.body) ∧
        (c.btype ≠ "required_providers" → NoTokItems c.body.items)) :
    sortRequiredProvidersInBlock (restoreBlock1 (sortRequiredProvidersInBlock b)) =
      sortRequiredProvidersInBlock b := by
  have hcm_noTok : NoTokItems (b.body.items.map rpChildMap) := by
    intro it hit
    obtain ⟨it0, hit0, rfl⟩ := List.mem_map.mp hit
    cases it0 with
    | tok t => exact absurd (h1 _ hit0) (by simp [noTokItemB])
    | attr n ts => rfl
    | blk c =>
      rw [rpChildMap_blk]
      by_cases hc : c.btype = "required_providers" <;> simp [hc, noTokItemB]
  have hR : restoreBlock1 (sortRequiredProvidersInBlock b) =
      Block.mk b.btype b.labels
        (Body.mk ((b.body.items.map rpChildMap).map restoreChildMap)) := by
    show Block.mk b.btype b.labels
        (Body.mk ((restoreItems (b.body.items.map rpChildMap) []).map restoreChildMap)) = _
    rw [restoreItems_noTok _ hcm_noTok]
  rw [hR]
  show Block.mk b.btype b.labels
      (Body.mk ((((b.body.items.map rpChildMap).map restoreChildMap)).map rpChildMap)) =
    Block.mk b.btype b.labels (Body.mk (b.body.items.map rpChildMap))
  refine congrArg (fun l => Block.mk b.btype b.labels (Body.mk l)) ?_
  rw [List.map_map, List.map_map]
  refine List.map_congr_left fun it hit => ?_
  cases it with
  | tok t => exact absurd (h1 _ hit) (by simp [noTokItemB])
  | attr n ts => rfl
  | blk c =>
    have hmem : c ∈ b.body.blocksList := by
      rw [Body.blocksList]
      exact List.mem_filterMap.mpr ⟨Item.blk c, hit, rfl⟩
    show rpChildMap (restoreChildMap (rpChildMap (Item.blk c))) = rpChildMap (Item.blk c)
    by_cases hc : c.btype = "required_providers"
    · obtain ⟨hnd2, hwfa2⟩ := (h2 c hmem).1 hc
      rw [rpChildMap_blk, if_pos hc, restoreChildMap_blk', rpChildMap_blk',
        if_pos hc, restoreBody0, restore_rebuildSorted _ hnd2 hwfa2,
        attributesList_mkAttrs, rebuild_restored _ hnd2 hwfa2]
    · have hnt := (h2 c hmem).2 hc
      rw [rpChildMap_blk, if_neg hc, restoreChildMap_blk, rpChildMap_blk',
        if_neg hc, restoreBody0, restoreItems_noTok _ hnt, Body.mk_items,
        Block.mk_eta]

end Tfsort

/-! ### Round trip of a sorted resource block -/

namespace Tfsort

/-- The attribute names present in a rebuilt resource body, in emission
order: leading meta-arguments, sorted plain names, then depends_on when
present. -/
def resKeys (e : List String) : List String :=
  resMetas e ++
    (resNames e ++ (if e.contains "depends_on" then ["depends_on"] else []))

/-- The item soup the round trip reads back from a rebuilt resource
body (the right-hand side of restore_resource_soup). -/
def resSoup (e : List String) (b : Block) : List Item :=
  (resMetas e).map (mkAttr b.body.attributesList) ++
    ((resNames e).map (mkAttr b.body.attributesList) ++
      (b.body.blocksList.map Item.blk ++
        (if e.contains "depends_on" then
          [mkAttr b.body.attributesList "depends_on"] else [])))

theorem mem_resMetas {e : List String} {n : String} (h : n ∈ resMetas e) :
    isLeadingMeta n = true := (List.mem_filter.mp h).2

theorem mem_resNames {e : List String} {n : String} (h : n ∈ resNames e) :
    (!isLeadingMeta n && n != "depends_on") = true := by
  rw [resNames, (List.perm_insertionSort nameLE _).mem_iff] at h
  exact (List.mem_filter.mp h).2

theorem resKeys_nodup (e : List String) (hnd : e.Nodup) : (resKeys e).Nodup := by
  have ndM : (resMetas e).Nodup := hnd.filter _
  have ndN : (resNames e).Nodup :=
    (List.perm_insertionSort nameLE _).nodup_iff.mpr (hnd.filter _)
  have ndD : (if e.contains "depends_on" then ["depends_on"] else []).Nodup := by
    split <;> simp
  refine List.Nodup.append ndM (List.Nodup.append ndN ndD ?_) ?_
  · intro n hn hd
    have h1 := mem_resNames hn
    have hd' : n = "depends_on" := by
      split at hd
      · simpa using hd
      · cases hd
    subst hd'
    simp at h1
  · intro n hn hnd'
    have h1 := mem_resMetas hn
    rcases List.mem_append.mp hnd' with h | h
    · have h2 := mem_resNames h
      rw [h1] at h2
      simp at h2
    · have hd' : n = "depends_on" := by
        split at h
        · simpa using h
        · cases h
      subst hd'
      exact absurd h1 (by decide)

theorem resKeys_filter_meta (e : List String) :
    (resKeys e).filter isLeadingMeta = resMetas e := by
  have h1 : (resMetas e).filter isLeadingMeta = resMetas e :=
    List.filter_eq_self.mpr fun n hn => mem_resMetas hn
  have h2 : (resNames e).filter isLeadingMeta = [] := by
    refine List.filter_eq_nil_iff.mpr fun n hn => ?_
    have h3 := mem_resNames hn
    simp only [Bool.and_eq_true, Bool.not_eq_true'] at h3
    simp [h3.1]
  have h3 : (if e.contains "depends_on" then ["depends_on"] else []).filter
      isLeadingMeta = [] := by
    split <;> rfl
  rw [resKeys, List.filter_append, List.filter_append, h1, h2, h3, List.append_nil,
    List.append_nil]

theorem resKeys_filter_names (e : List String) :
    (resKeys e).filter (fun n => !isLeadingMeta n && n != "depends_on") =
      resNames e := by
  have h1 : (resMetas e).filter (fun n => !isLeadingMeta n && n != "depends_on") =
      [] := by
    refine List.filter_eq_nil_iff.mpr fun n hn => ?_
    have h4 := mem_resMetas hn
    simp [h4]
  have h2 : (resNames e).filter (fun n => !isLeadingMeta n && n != "depends_on") =
      resNames e := List.filter_eq_self.mpr fun n hn => mem_resNames hn
  have h3 : (if e.contains "depends_on" then ["depends_on"] else []).filter
      (fun n => !isLeadingMeta n && n != "depends_on") = [] := by
    split <;> rfl
  rw [resKeys, List.filter_append, List.filter_append, h1, h2, h3, List.append_nil,
    List.nil_append]

theorem resKeys_mem_dep (e : List String) :
    "depends_on" ∈ resKeys e ↔ e.contains "depends_on" = true := by
  constructor
  · intro h
    rcases List.mem_append.mp h with h | h
    · exact absurd (mem_resMetas h) (by decide)
    · rcases List.mem_append.mp h with h | h
      · have h2 := mem_resNames h
        simp at h2
      · by_cases hc : e.contains "depends_on" = true
        · exact hc
        · rw [if_neg hc] at h
          cases h
  · intro h
    refine List.mem_append.mpr (Or.inr (List.mem_append.mpr (Or.inr ?_)))
    rw [if_pos h]
    exact List.mem_singleton.mpr rfl

theorem perm_eq_of_length_le_one {α : Type} {l₁ l₂ : List α} (h : l₁.Perm l₂)
    (hl : l₂.length ≤ 1) : l₁ = l₂ := by
  match l₂, hl with
  | [], _ => exact h.eq_nil
  | [a], _ => exact List.perm_singleton.mp h
  | a :: b :: rest, hl => exact absurd hl (by simp)

theorem length_le_one_of_two (a b : String) {l : List String} (hnd : l.Nodup)
    (hab : ∀ x ∈ l, x = a ∨ x = b) (h : ¬(a ∈ l ∧ b ∈ l)) : l.length ≤ 1 := by
  match l, hnd, hab with
  | [], _, _ => simp
  | [x], _, _ => simp
  | x :: y :: rest, hnd, hab =>
    exfalso
    have hxy : x ≠ y := by
      rw [List.nodup_cons] at hnd
      exact fun he => hnd.1 (he ▸ List.mem_cons_self _ _)
    rcases hab x (by simp) with rfl | rfl <;> rcases hab y (by simp) with rfl | rfl
    · exact hxy rfl
    · exact h ⟨by simp, by simp⟩
    · exact h ⟨by simp, by simp⟩
    · exact hxy rfl


theorem attributesList_blkItems (bs : List Block) :
    (Body.mk (bs.map Item.blk)).attributesList = [] := by
  induction bs with
  | nil => rfl
  | cons c rest ih =>
    rw [List.map_cons]
    rw [Body.attributesList, Body.items_mk] at ih ⊢
    rw [List.filterMap_cons]
    simpa using ih

theorem blocksList_blkItems (bs : List Block) :
    (Body.mk (bs.map Item.blk)).blocksList = bs := by
  induction bs with
  | nil => rfl
  | cons c rest ih =>
    rw [List.map_cons]
    rw [Body.blocksList, Body.items_mk] at ih ⊢
    rw [List.filterMap_cons]
    simpa using ih

theorem soup_attrs (e : List String) (b : Block) :
    (Body.mk (resSoup e b)).attributesList =
      (resKeys e).map fun n =>
        (n, trimNewlines (lookupTok n b.body.attributesList) ++ [Token.nl]) := by
  have hM := attributesList_mkAttrs (resMetas e) b.body.attributesList
  have hN := attributesList_mkAttrs (resNames e) b.body.attributesList
  have hB := attributesList_blkItems b.body.blocksList
  rw [Body.attributesList, Body.items_mk] at hM hN hB ⊢
  rw [resSoup, List.filterMap_append, List.filterMap_append, List.filterMap_append,
    hM, hN, hB, List.nil_append, resKeys, List.map_append, List.map_append]
  congr 1
  congr 1
  rcases hc : e.contains "depends_on" with _ | _
  · rw [if_neg (by decide), if_neg (by decide)]
    rfl
  · rw [if_pos rfl, if_pos rfl]
    rfl

theorem soup_blocks (e : List String) (b : Block) :
    (Body.mk (resSoup e b)).blocksList = b.body.blocksList := by
  have hM := blocksList_mkAttrs (resMetas e) b.body.attributesList
  have hN := blocksList_mkAttrs (resNames e) b.body.attributesList
  have hB := blocksList_blkItems b.body.blocksList
  rw [Body.blocksList, Body.items_mk] at hM hN hB ⊢
  rw [resSoup, List.filterMap_append, List.filterMap_append, List.filterMap_append,
    hM, hN, hB, List.nil_append, List.nil_append]
  have hD : (if e.contains "depends_on" then
      [mkAttr b.body.attributesList "depends_on"] else []).filterMap
        (fun it => match it with | Item.blk c => some c | _ => none) = [] := by
    split <;> rfl
  rw [hD, List.append_nil]

/-- The round trip reads a rebuilt resource body back as resSoup. -/
theorem restore_resource_block (e : List String) (b : Block)
    (hnd : (b.body.attributesList.map Prod.fst).Nodup)
    (hwf : ∀ p ∈ b.body.attributesList, attrWFB p.1 p.2 = true)
    (hperm : e.Perm (b.body.attributesList.map Prod.fst))
    (hch : ∀ c ∈ b.body.blocksList, NoTokItems c.body.items) :
    restoreBlock1 (sortResourceParams e b) =
      Block.mk b.btype b.labels (Body.mk (resSoup e b)) := by
  show Block.mk b.btype b.labels
      (Body.mk ((restoreItems (sortResourceParams e b).body.items []).map
        restoreChildMap)) = _
  rw [restore_resource_soup e b hnd hwf hperm]
  refine congrArg (fun l => Block.mk b.btype b.labels (Body.mk l)) ?_
  rw [resSoup, List.map_append, List.map_append, List.map_append,
    restoreChildMap_attrs, restoreChildMap_attrs]
  congr 1
  congr 1
  congr 1
  · rw [List.map_map]
    refine List.map_congr_left fun c hc => ?_
    show restoreChildMap (Item.blk c) = Item.blk c
    rw [restoreChildMap_blk, restoreBody0, restoreItems_noTok _ (hch c hc),
      Body.mk_items, Block.mk_eta]
  · split <;> rfl

/-- sortResourceParams only looks at the enumeration-derived name lists,
the depends_on flag, the nested blocks, and the trimmed runs of the
emitted attributes. -/
theorem sortResourceParams_congr (e e' : List String) (b b' : Block)
    (ht : b'.btype = b.btype) (hl : b'.labels = b.labels)
    (hM : resMetas e' = resMetas e) (hN : resNames e' = resNames e)
    (hD : e'.contains "depends_on" = e.contains "depends_on")
    (hbl : b'.body.blocksList = b.body.blocksList)
    (hrM : ∀ n ∈ resMetas e, trimNewlines (lookupTok n b'.body.attributesList) =
      trimNewlines (lookupTok n b.body.attributesList))
    (hrN : ∀ n ∈ resNames e, trimNewlines (lookupTok n b'.body.attributesList) =
      trimNewlines (lookupTok n b.body.attributesList))
    (hrD : e.contains "depends_on" = true →
      trimNewlines (lookupTok "depends_on" b'.body.attributesList) =
        trimNewlines (lookupTok "depends_on" b.body.attributesList)) :
    sortResourceParams e' b' = sortResourceParams e b := by
  have hit : (sortResourceParams e' b').body.items =
      (sortResourceParams e b).body.items := by
    rw [sortResourceParams_items, sortResourceParams_items]
    simp only [hM, hN, hD, hbl]
    have hmp : metaPart b'.body.attributesList (resMetas e) =
        metaPart b.body.attributesList (resMetas e) := by
      rw [metaPart, metaPart]
      refine congrArg List.flatten (List.map_congr_left fun n hn => ?_)
      rw [attrRun, attrRun, hrM n hn]
    have hjn : (resNames e).map (attrRun b'.body.attributesList) =
        (resNames e).map (attrRun b.body.attributesList) := by
      refine List.map_congr_left fun n hn => ?_
      rw [attrRun, attrRun, hrN n hn]
    rw [hmp, hjn]
    rcases hc : e.contains "depends_on" with _ | _
    · simp
    · have hdep : attrRun b'.body.attributesList "depends_on" =
          attrRun b.body.attributesList "depends_on" := by
        rw [attrRun, attrRun, hrD hc]
      rw [if_pos rfl, if_pos rfl, hdep]
  calc sortResourceParams e' b'
      = Block.mk b'.btype b'.labels (sortResourceParams e' b').body := rfl
    _ = Block.mk b.btype b.labels (sortResourceParams e b).body := by
        rw [ht, hl, Body.eq_of_items hit]
    _ = sortResourceParams e b := rfl


/-- The resource sorter reproduces its own output across the round trip,
for any pair of admissible attribute-map iteration orders. -/
theorem sortRes_roundtrip (e₁ e₂ : List String) (b : Block)
    (hnd : (b.body.attributesList.map Prod.fst).Nodup)
    (hwf : ∀ p ∈ b.body.attributesList, attrWFB p.1 p.2 = true)
    (hmeta : AtMostOneMeta b.body)
    (hch : ∀ c ∈ b.body.blocksList, NoTokItems c.body.items)
    (hperm₁ : e₁.Perm (b.body.attributesList.map Prod.fst))
    (hperm₂ : e₂.Perm
      ((restoreBlock1 (sortResourceParams e₁ b)).body.attributesList.map Prod.fst)) :
    sortResourceParams e₂ (restoreBlock1 (sortResourceParams e₁ b)) =
      sortResourceParams e₁ b := by
  have hR := restore_resource_block e₁ b hnd hwf hperm₁ hch
  have hnd₁ : e₁.Nodup := hperm₁.nodup_iff.mpr hnd
  have hKnd : (resKeys e₁).Nodup := resKeys_nodup e₁ hnd₁
  have hkeys : ((Body.mk (resSoup e₁ b)).attributesList).map Prod.fst = resKeys e₁ := by
    rw [soup_attrs, List.map_map]
    conv_rhs => rw [show resKeys e₁ = (resKeys e₁).map id from (List.map_id _).symm]
    exact List.map_congr_left fun n _ => rfl
  have hpK : e₂.Perm (resKeys e₁) := by
    rw [hR] at hperm₂
    have hperm₂' : e₂.Perm
        (((Body.mk (resSoup e₁ b)).attributesList).map Prod.fst) := hperm₂
    rwa [hkeys] at hperm₂'
  have hlenM : (resMetas e₁).length ≤ 1 := by
    refine length_le_one_of_two "count" "for_each" (hnd₁.filter _)
      (fun x hx => ?_) (fun hcf => ?_)
    · have h1 := mem_resMetas hx
      simpa [isLeadingMeta] using h1
    · exact hmeta ⟨hperm₁.subset (List.mem_of_mem_filter hcf.1),
        hperm₁.subset (List.mem_of_mem_filter hcf.2)⟩
  have hMeq : resMetas e₂ = resMetas e₁ := by
    refine perm_eq_of_length_le_one ?_ hlenM
    have h1 := hpK.filter isLeadingMeta
    rw [resKeys_filter_meta] at h1
    exact h1
  have hNeq : resNames e₂ = resNames e₁ := by
    have h1 : (e₂.filter (fun n => !isLeadingMeta n && n != "depends_on")).Perm
        (resNames e₁) := by
      have h2 := hpK.filter (fun n => !isLeadingMeta n && n != "depends_on")
      rwa [resKeys_filter_names] at h2
    exact List.eq_of_perm_of_sorted ((List.perm_insertionSort nameLE _).trans h1)
      (List.sorted_insertionSort nameLE _) (List.sorted_insertionSort nameLE _)
  have hDeq : e₂.contains "depends_on" = e₁.contains "depends_on" := by
    rcases hc : e₁.contains "depends_on" with _ | _
    · by_contra hh
      rw [Bool.not_eq_false] at hh
      have h2 : "depends_on" ∈ e₂ := by simpa using hh
      have h3 := (resKeys_mem_dep e₁).mp (hpK.mem_iff.mp h2)
      rw [hc] at h3
      exact Bool.noConfusion h3
    · have h2 : "depends_on" ∈ e₂ := hpK.mem_iff.mpr ((resKeys_mem_dep e₁).mpr hc)
      simpa using h2
  rw [hR]
  refine sortResourceParams_congr e₁ e₂ b
    (Block.mk b.btype b.labels (Body.mk (resSoup e₁ b))) rfl rfl hMeq hNeq hDeq
    (soup_blocks e₁ b) ?_ ?_ ?_
  · intro n hn
    have hnK : n ∈ resKeys e₁ := List.mem_append.mpr (Or.inl hn)
    show trimNewlines (lookupTok n (Body.mk (resSoup e₁ b)).attributesList) = _
    rw [soup_attrs, lookupTok_map_mk _ _ n hnK hKnd, trim_append_nl]
  · intro n hn
    have hnK : n ∈ resKeys e₁ :=
      List.mem_append.mpr (Or.inr (List.mem_append.mpr (Or.inl hn)))
    show trimNewlines (lookupTok n (Body.mk (resSoup e₁ b)).attributesList) = _
    rw [soup_attrs, lookupTok_map_mk _ _ n hnK hKnd, trim_append_nl]
  · intro hc
    have hnK : "depends_on" ∈ resKeys e₁ := (resKeys_mem_dep e₁).mpr hc
    show trimNewlines
        (lookupTok "depends_on" (Body.mk (resSoup e₁ b)).attributesList) = _
    rw [soup_attrs, lookupTok_map_mk _ _ "depends_on" hnK hKnd, trim_append_nl]


/-- One top-level block: the switch's result survives the round trip and
a second pass, whatever iteration orders the two passes see. -/
theorem phase1_restore_idem (e₁ e₂ : Block → List String) (b : Block)
    (hwf : TopBlockWF b) (he₁ : EnumOK e₁) (he₂ : EnumOK e₂) :
    phase1Block e₂ (restoreBlock1 (phase1Block e₁ b)) = phase1Block e₁ b := by
  obtain ⟨hTf, hRes, hLoc, hOther⟩ := hwf
  by_cases h1 : b.btype = "terraform"
  · obtain ⟨hnt, hcs⟩ := hTf h1
    have hps : phase1Block e₁ b = sortRequiredProvidersInBlock b := by
      rw [phase1Block, if_pos h1]
    rw [hps]
    have hbt : (restoreBlock1 (sortRequiredProvidersInBlock b)).btype =
        "terraform" := h1
    rw [phase1Block, if_pos hbt]
    exact sortRP_roundtrip b hnt hcs
  · by_cases h2 : b.btype = "resource"
    · obtain ⟨⟨hnd, hwfa⟩, hmeta, hch⟩ := hRes h2
      have hps : phase1Block e₁ b = sortResourceParams (e₁ b) b := by
        rw [phase1Block, if_neg h1, if_pos h2]
      rw [hps]
      have hb1 : ¬ (restoreBlock1 (sortResourceParams (e₁ b) b)).btype =
          "terraform" := h1
      have hb2 : (restoreBlock1 (sortResourceParams (e₁ b) b)).btype =
          "resource" := h2
      rw [phase1Block, if_neg hb1, if_pos hb2]
      exact sortRes_roundtrip (e₁ b)
        (e₂ (restoreBlock1 (sortResourceParams (e₁ b) b))) b hnd hwfa hmeta hch
        (he₁ b) (he₂ (restoreBlock1 (sortResourceParams (e₁ b) b)))
    · by_cases h3 : b.btype = "locals"
      · have hps : phase1Block e₁ b = sortLocalsBlock b := by
          rw [phase1Block, if_neg h1, if_neg h2, if_pos h3]
        rw [hps]
        have hb1 : ¬ (restoreBlock1 (sortLocalsBlock b)).btype = "terraform" := h1
        have hb2 : ¬ (restoreBlock1 (sortLocalsBlock b)).btype = "resource" := h2
        have hb3 : (restoreBlock1 (sortLocalsBlock b)).btype = "locals" := h3
        rw [phase1Block, if_neg hb1, if_neg hb2, if_pos hb3]
        exact sortLocals_roundtrip b (hLoc h3)
      · obtain ⟨hnt, hcs⟩ := hOther h1 h2 h3
        have hps : phase1Block e₁ b = b := by
          rw [phase1Block, if_neg h1, if_neg h2, if_neg h3]
        rw [hps, restoreBlock1_id b hnt hcs, phase1Block, if_neg h1, if_neg h2,
          if_neg h3]


/-! ### Idempotence of the whole pass (claim C5) -/

/-- The other group of the top-level emission, in original order. -/
def otherTop (e : Block → List String) (allowed : String → Bool) (f : Body) :
    List Block :=
  (topBlocks e f).filter fun b => !isSortable allowed b

/-- The sortable group of the top-level emission, sorted by first label. -/
def sortedTop (e : Block → List String) (allowed : String → Bool) (f : Body) :
    List Block :=
  List.insertionSort blockLE ((topBlocks e f).filter (isSortable allowed))

/-- The emitted top-level block order. -/
def topOrder (e : Block → List String) (allowed : String → Bool) (f : Body) :
    List Block :=
  otherTop e allowed f ++ sortedTop e allowed f

theorem processAndSortBlocks_items2 (e : Block → List String)
    (allowed : String → Bool) (f : Body) :
    (processAndSortBlocks e allowed f).items =
      joinNl ((topOrder e allowed f).map fun c => [Item.blk c]) :=
  processAndSortBlocks_items e allowed f

theorem topBlocks_eq (e : Block → List String) (f : Body) :
    topBlocks e f = f.blocksList.map (phase1Block e) := by
  rw [topBlocks, phase1Items, Body.blocksList, Body.items_mk, Body.blocksList]
  induction f.items with
  | nil => rfl
  | cons it rest ih =>
    cases it with
    | tok t => simpa using ih
    | attr n ts => simpa using ih
    | blk c => simpa using ih

theorem DocWF_blocks {f : Body} (h : DocWF f) :
    ∀ b ∈ f.blocksList, TopBlockWF b := by
  intro b hb
  rw [Body.blocksList] at hb
  obtain ⟨it, hit, he⟩ := List.mem_filterMap.mp hb
  cases it with
  | tok t => exact Option.noConfusion he
  | attr n ts => exact Option.noConfusion he
  | blk c =>
    have hcb : c = b := Option.some.inj he
    subst hcb
    exact h _ hit

theorem filterMap_topMapItem_joinBlks (bs : List Block) :
    (joinNl (bs.map fun c => [Item.blk c])).filterMap topMapItem =
      bs.map fun c => Item.blk (restoreBlock1 c) := by
  induction bs with
  | nil => rfl
  | cons c rest ih =>
    cases rest with
    | nil => rfl
    | cons c' rest' =>
      simp only [List.map_cons] at ih ⊢
      rw [joinNl_cons_cons, List.singleton_append, List.filterMap_cons,
        List.filterMap_cons]
      rw [ih]
      rfl

theorem restoreTop_joinBlks (bs : List Block) :
    restoreTop (Body.mk (joinNl (bs.map fun c => [Item.blk c]))) =
      Body.mk (bs.map fun c => Item.blk (restoreBlock1 c)) := by
  refine Body.eq_of_items ?_
  rw [restoreTop, Body.items_mk, Body.items_mk, Body.items_mk,
    filterMap_topMapItem_joinBlks]


/-- C5 (amended): on round-trip-wellformed documents (attribute runs are
single ident-led lines, bodies carried through unchanged hold no stray
raw tokens, and no resource block carries both count and for_each), the
reorder pass composed with the external format / parse round trip is
idempotent, for every pair of admissible attribute-map iteration
assignments seen by the two passes. -/
theorem reorder_idem (e₁ e₂ : Block → List String) (allowed : String → Bool)
    (f : Body) (hwf : DocWF f) (he₁ : EnumOK e₁) (he₂ : EnumOK e₂) :
    reorder e₂ allowed (reorder e₁ allowed f) = reorder e₁ allowed f := by
  have hP₁ : processAndSortBlocks e₁ allowed f =
      Body.mk (joinNl ((topOrder e₁ allowed f).map fun c => [Item.blk c])) :=
    Body.eq_of_items (processAndSortBlocks_items2 e₁ allowed f)
  have hR₁ : reorder e₁ allowed f =
      Body.mk ((topOrder e₁ allowed f).map fun c => Item.blk (restoreBlock1 c)) := by
    rw [reorder, hP₁, restoreTop_joinBlks]
  have hmemTB : ∀ c ∈ topOrder e₁ allowed f, c ∈ topBlocks e₁ f := by
    intro c hc
    rcases List.mem_append.mp hc with h | h
    · exact List.mem_of_mem_filter h
    · rw [sortedTop, (List.perm_insertionSort blockLE _).mem_iff] at h
      exact List.mem_of_mem_filter h
  have hfix : ∀ c ∈ topOrder e₁ allowed f, phase1Block e₂ (restoreBlock1 c) = c := by
    intro c hc
    have h1 := hmemTB c hc
    rw [topBlocks_eq] at h1
    obtain ⟨b₀, hb₀, rfl⟩ := List.mem_map.mp h1
    exact phase1_restore_idem e₁ e₂ b₀ (DocWF_blocks hwf b₀ hb₀) he₁ he₂
  have hTB₂ : topBlocks e₂
      (Body.mk ((topOrder e₁ allowed f).map fun c => Item.blk (restoreBlock1 c))) =
      topOrder e₁ allowed f := by
    rw [topBlocks_eq]
    have hbl : (Body.mk ((topOrder e₁ allowed f).map
        fun c => Item.blk (restoreBlock1 c))).blocksList =
        (topOrder e₁ allowed f).map restoreBlock1 := by
      rw [show ((topOrder e₁ allowed f).map fun c => Item.blk (restoreBlock1 c)) =
        ((topOrder e₁ allowed f).map restoreBlock1).map Item.blk from by
          rw [List.map_map]
          rfl]
      exact blocksList_blkItems _
    rw [hbl, List.map_map]
    conv_rhs => rw [show topOrder e₁ allowed f =
      (topOrder e₁ allowed f).map id from (List.map_id _).symm]
    exact List.map_congr_left fun c hc => hfix c hc
  have hsortedS : List.insertionSort blockLE (sortedTop e₁ allowed f) =
      sortedTop e₁ allowed f :=
    List.Sorted.insertionSort_eq (List.sorted_insertionSort blockLE _)
  have hnil1 : (sortedTop e₁ allowed f).filter (fun b => !isSortable allowed b) =
      [] := by
    refine List.filter_eq_nil_iff.mpr fun b hb => ?_
    rw [sortedTop, (List.perm_insertionSort blockLE _).mem_iff] at hb
    have h2 := List.of_mem_filter hb
    simp [h2]
  have hnil2 : (otherTop e₁ allowed f).filter (isSortable allowed) = [] := by
    refine List.filter_eq_nil_iff.mpr fun b hb => ?_
    rw [otherTop] at hb
    have h2 := (List.mem_filter.mp hb).2
    simp only [Bool.not_eq_true'] at h2
    simp [h2]
  have hself1 : (otherTop e₁ allowed f).filter (fun b => !isSortable allowed b) =
      otherTop e₁ allowed f := by
    refine List.filter_eq_self.mpr fun b hb => ?_
    rw [otherTop] at hb
    exact (List.mem_filter.mp hb).2
  have hself2 : (sortedTop e₁ allowed f).filter (isSortable allowed) =
      sortedTop e₁ allowed f := by
    refine List.filter_eq_self.mpr fun b hb => ?_
    rw [sortedTop, (List.perm_insertionSort blockLE _).mem_iff] at hb
    exact List.of_mem_filter hb
  have hfo : (topOrder e₁ allowed f).filter (fun b => !isSortable allowed b) =
      otherTop e₁ allowed f := by
    rw [topOrder, List.filter_append, hself1, hnil1, List.append_nil]
  have hfs : (topOrder e₁ allowed f).filter (isSortable allowed) =
      sortedTop e₁ allowed f := by
    rw [topOrder, List.filter_append, hnil2, hself2, List.nil_append]
  have hP₂ : processAndSortBlocks e₂ allowed
      (Body.mk ((topOrder e₁ allowed f).map fun c => Item.blk (restoreBlock1 c))) =
      Body.mk (joinNl ((topOrder e₁ allowed f).map fun c => [Item.blk c])) := by
    refine Body.eq_of_items ?_
    rw [processAndSortBlocks_items, hTB₂, Body.items_mk, hfo, hfs, hsortedS]
    rfl
  rw [hR₁, reorder, hP₂, restoreTop_joinBlks]


/-- The map-iteration assignment that yields each attributes map's keys
reversed: an equally legitimate range order over a Go map. -/
def revEnum (b : Block) : List String :=
  (canonicalEnum b).reverse

/-- The attribute-name sequences of the top-level blocks' bodies: the
structural order the claim compares. -/
def topAttrNamesOf (f : Body) : List (List String) :=
  f.items.filterMap fun it =>
    match it with
    | Item.blk c => some (itemAttrNames c.body.items)
    | _ => none

/-- C5 (counterexample): a valid document holding a resource block with
both count and for_each is not reordered idempotently.  The first pass
ranges over the attributes map in key order count, for_each; rerunning
the pass on its own output with the equally legitimate reversed range
order emits for_each before count, a different structure. -/
theorem reorder_claim_counterexample :
    EnumOK canonicalEnum ∧ EnumOK revEnum ∧
      reorder revEnum (fun _ => false)
          (reorder canonicalEnum (fun _ => false)
            (Body.mk [Item.blk resBothMetasExample])) ≠
        reorder canonicalEnum (fun _ => false)
          (Body.mk [Item.blk resBothMetasExample]) := by
  refine ⟨fun b => List.Perm.refl _, fun b => List.reverse_perm _, fun he => ?_⟩
  have h2 := congrArg topAttrNamesOf he
  exact absurd h2 (by decide)

/-- A round-trip-wellformed document: a resource block with one leading
meta-argument and one plain attribute, and a labeled variable block. -/
def docC5Example : Body :=
  Body.mk [Item.blk (Block.mk "resource" ["aws_instance", "y"]
      (Body.mk [Item.attr "count" [Token.ident "count", Token.raw "=1"],
        Item.attr "name" [Token.ident "name", Token.raw "=z"]])),
    Item.blk (Block.mk "variable" ["a"] (Body.mk []))]

theorem reorder_idem_witness :
    DocWF docC5Example ∧
      reorder revEnum (fun k => k == "variable")
          (reorder canonicalEnum (fun k => k == "variable") docC5Example) =
        reorder canonicalEnum (fun k => k == "variable") docC5Example :=
  ⟨by decide, reorder_idem canonicalEnum revEnum (fun k => k == "variable")
    docC5Example (by decide) (fun b => List.Perm.refl _)
    (fun b => List.reverse_perm _)⟩

end Tfsort
